import Mathlib

/-!
Shallow embedding of `src/search_interface.py` (tmux-flash-copy).

Strings are modelled as `List Char`; Python `str.split`, regex token scans
(`\S+` / `[^seps]+` via `re.finditer`), `str.find`, `str.lower`, sets, and the
ordered `dict` index are modelled by executable list functions.  `None` /
falsy-string configuration values (`word_separators`, `label_characters`) are
modelled by the empty list, which the Python code treats identically to `None`.

The word and separator patterns are character classes interpolated from the
separator string.  The plain definitions (`wordBoundary`, `leadingSep`,
`trailingSep`, `runSearch`) model the classes as literal set membership, which
agrees with the program whenever the escaped separator string contains no
unescaped mid-class hyphen; the `…Re` definitions (`classItems`,
`compileClass`, `wordBoundaryRe`, `sepPredRe`, `mkSearchInterfaceRe`,
`runSearchRe`) model the compilation faithfully, with Python range semantics
for unescaped hyphens and with `none` for the `re.error` path of
`re.compile`.
-/

set_option maxRecDepth 20000

namespace FlashCopy

open scoped List

/-- Python `str.isspace` / regex `\s` class, restricted to the code points the
program can meet (the full Unicode white-space set). -/
def pyIsSpace (c : Char) : Bool :=
  [(0x09 : Nat), 0x0A, 0x0B, 0x0C, 0x0D, 0x1C, 0x1D, 0x1E, 0x1F, 0x20,
   0x85, 0xA0, 0x1680, 0x2000, 0x2001, 0x2002, 0x2003, 0x2004, 0x2005,
   0x2006, 0x2007, 0x2008, 0x2009, 0x200A, 0x2028, 0x2029, 0x202F, 0x205F,
   0x3000].contains c.toNat

/-- Python `str.lower`, code-point-wise. -/
def lowerChars (s : List Char) : List Char := s.map Char.toLower

/-- Python `content.split("\n")` (an empty string yields one empty line). -/
def splitLines : List Char → List (List Char)
  | [] => [[]]
  | c :: cs =>
    let rest := splitLines cs
    if c = '\n' then [] :: rest
    else
      match rest with
      | [] => [[c]]
      | l :: ls => (c :: l) :: ls

/-- One entry of `SearchMatch` (`label`, `match_start`, `match_end` are the
mutable fields the Python constructor initialises to `None` / `0`). -/
structure SearchMatch where
  text : List Char
  start_pos : Nat
  end_pos : Nat
  line : Nat
  col : Nat
  label : Option Char
  match_start : Nat
  match_end : Nat
  copy_text : List Char
deriving Repr, DecidableEq

/-- Scanner for `re.finditer(word_pattern, line)`: emits the maximal runs of
characters rejected by the separator predicate `p`, with their start offsets.
`acc` holds the (reversed) run in progress together with its start. -/
def tokensAcc (p : Char → Bool) : List Char → Nat → Option (Nat × List Char) →
    List (Nat × List Char)
  | [], _, none => []
  | [], _, some (s, acc) => [(s, acc.reverse)]
  | c :: cs, i, none =>
    if p c then tokensAcc p cs (i + 1) none
    else tokensAcc p cs (i + 1) (some (i, [c]))
  | c :: cs, i, some (s, acc) =>
    if p c then (s, acc.reverse) :: tokensAcc p cs (i + 1) none
    else tokensAcc p cs (i + 1) (some (s, c :: acc))

/-- All maximal non-separator runs of a line, with start offsets. -/
def tokens (p : Char → Bool) (line : List Char) : List (Nat × List Char) :=
  tokensAcc p line 0 none

/-- The word-boundary predicate compiled by `_get_word_pattern`: `\S+` when no
separators are configured, `[^seps]+` otherwise (so a character is a boundary
when it is whitespace, resp. a member of the separator set). -/
def wordBoundary (seps : List Char) (c : Char) : Bool :=
  if seps.isEmpty then pyIsSpace c else seps.contains c

/-- The non-whitespace separator characters (`non_ws_seps` in
`_build_word_index`); the separator capture pattern matches runs of these. -/
def nonWsSeps (seps : List Char) : List Char :=
  seps.filter (fun c => !pyIsSpace c)

/-- Leading separator capture: the maximal run of non-whitespace separator
characters immediately before offset `wstart` of `line` (the last
`separator_pattern` match of `line[:word_start]` when it ends at
`word_start`). -/
def leadingSep (q : List Char) (line : List Char) (wstart : Nat) : List Char :=
  ((line.take wstart).reverse.takeWhile (fun c => q.contains c)).reverse

/-- Trailing separator capture: the maximal run of non-whitespace separator
characters immediately after offset `wend` of `line`
(`separator_pattern.match(line[word_end:])`). -/
def trailingSep (q : List Char) (line : List Char) (wend : Nat) : List Char :=
  (line.drop wend).takeWhile (fun c => q.contains c)

/-- The `SearchMatch` built for one word of one line in `_build_word_index`
(`pos` is the flattened offset of the line start). -/
def mkLineMatch (seps : List Char) (pos lineIdx : Nat) (line : List Char)
    (tok : Nat × List Char) : SearchMatch :=
  let lead := leadingSep (nonWsSeps seps) line tok.1
  let trail := trailingSep (nonWsSeps seps) line (tok.1 + tok.2.length)
  { text := lead ++ tok.2 ++ trail
    start_pos := pos + (tok.1 - lead.length)
    end_pos := pos + tok.1 + tok.2.length
    line := lineIdx
    col := tok.1 - lead.length
    label := none
    match_start := 0
    match_end := 0
    copy_text := tok.2 }

/-- All `SearchMatch`es of one line, in scan order. -/
def buildLineMatches (seps : List Char) (pos lineIdx : Nat) (line : List Char) :
    List SearchMatch :=
  (tokens (wordBoundary seps) line).map (mkLineMatch seps pos lineIdx line)

/-- The `SearchMatch`es of all lines in build order (`pos` advances by
`len(line) + 1` per line, for the newline). -/
def buildMatches (seps : List Char) : List (List Char) → Nat → Nat →
    List SearchMatch
  | [], _, _ => []
  | line :: rest, lineIdx, pos =>
    buildLineMatches seps pos lineIdx line ++
      buildMatches seps rest (lineIdx + 1) (pos + line.length + 1)

/-- Key under which a match is indexed (`extended_text`, lowercased unless
case-sensitive). -/
def indexKey (case_sensitive : Bool) (text : List Char) : List Char :=
  if case_sensitive then text else lowerChars text

/-- Append a match to its bucket of the insertion-ordered dict
(`defaultdict(list)` semantics). -/
def indexInsert (k : List Char) (m : SearchMatch) :
    List (List Char × List SearchMatch) → List (List Char × List SearchMatch)
  | [] => [(k, [m])]
  | (k', ms) :: rest =>
    if k' = k then (k', ms ++ [m]) :: rest else (k', ms) :: indexInsert k m rest

/-- The `word_index` dict built by `_build_word_index`. -/
def buildIndex (case_sensitive : Bool) (ms : List SearchMatch) :
    List (List Char × List SearchMatch) :=
  ms.foldl (fun idx m => indexInsert (indexKey case_sensitive m.text) m idx) []

/-- Default label pool (`DEFAULT_LABELS`). -/
def DEFAULT_LABELS : List Char :=
  "asdfghjklqwertyuiopzxcvbnmASDFGHJKLQWERTYUIOPZXCVBNM".toList

/-- The state of one `SearchInterface` after `__init__`. -/
structure SearchInterface where
  lines : List (List Char)
  reverse_search : Bool
  word_separators : List Char
  case_sensitive : Bool
  label_characters : List Char
  word_index : List (List Char × List SearchMatch)
deriving Repr, DecidableEq

/-- `SearchInterface.__init__` (construction plus `_build_word_index`). -/
def mkSearchInterface (pane_content : List Char) (reverse_search : Bool)
    (word_separators : List Char) (case_sensitive : Bool)
    (label_characters : List Char) : SearchInterface :=
  let lines := splitLines pane_content
  { lines
    reverse_search
    word_separators
    case_sensitive
    label_characters :=
      if label_characters.isEmpty then DEFAULT_LABELS else label_characters
    word_index := buildIndex case_sensitive (buildMatches word_separators lines 0 0) }

/-- Python `haystack.find(needle)` as an `Option`: the least offset at which
`needle` occurs in `haystack` (`none` for `-1`). -/
def listFind (hay needle : List Char) : Option Nat :=
  (List.range (hay.length + 1)).find? (fun i => needle.isPrefixOf (hay.drop i))

/-- Python `needle in haystack` for strings. -/
def isSubstring (needle hay : List Char) : Bool := (listFind hay needle).isSome

/-- Position of the query inside one indexed match's text
(`match.text.find(q)` resp. `match.text.lower().find(q)`). -/
def searchText (case_sensitive : Bool) (m : SearchMatch) (q : List Char) :
    Option Nat :=
  if case_sensitive then listFind m.text q else listFind (lowerChars m.text) q

/-- Deduplication by the composite key `(start_pos, text)` keeping first
occurrences (`seen` models the Python set). -/
def dedupMatches : List SearchMatch → List (Nat × List Char) → List SearchMatch
  | [], _ => []
  | m :: ms, seen =>
    if seen.contains (m.start_pos, m.text) then dedupMatches ms seen
    else m :: dedupMatches ms ((m.start_pos, m.text) :: seen)

/-- Stable insertion by ascending `start_pos` (`list.sort` is stable). -/
def insertByPos (m : SearchMatch) : List SearchMatch → List SearchMatch
  | [] => [m]
  | x :: xs =>
    if m.start_pos ≤ x.start_pos then m :: x :: xs else x :: insertByPos m xs

/-- Stable sort by ascending `start_pos`
(`unique_matches.sort(key=lambda m: m.start_pos)`). -/
def sortByPos : List SearchMatch → List SearchMatch
  | [] => []
  | m :: ms => insertByPos m (sortByPos ms)

/-- Python `set.add`: a set modelled as a duplicate-free list in insertion
order. -/
def setAdd (s : List Char) (c : Char) : List Char :=
  if s.contains c then s else s ++ [c]

/-- The continuation-character set of `_assign_labels`: for every match, the
character of its `text` immediately after the matched span (case-folded unless
case-sensitive). -/
def contChars (case_sensitive : Bool) (ms : List SearchMatch) : List Char :=
  ms.foldl (fun s m =>
    if h : m.match_end < m.text.length then
      setAdd s (if case_sensitive then m.text.get ⟨m.match_end, h⟩
                else (m.text.get ⟨m.match_end, h⟩).toLower)
    else s) []

/-- Ban check of `_assign_labels` for one pool character `c` against the query
set `qc`, the continuation set `cont` and the match's own characters `mc`
(lower-cased comparison unless case-sensitive). -/
def labelOk (case_sensitive : Bool) (qc cont mc : List Char) (c : Char) : Bool :=
  if case_sensitive then
    !(qc.contains c || cont.contains c || mc.contains c)
  else
    !(qc.contains c.toLower || cont.contains c.toLower || mc.contains c.toLower)

/-- The `available_labels` filter of `_assign_labels` for one match:
pool characters not yet used and banned neither by the query set, the
continuation set, nor the match's own characters. -/
def availableLabels (case_sensitive : Bool) (qc cont mc used pool : List Char) :
    List Char :=
  pool.filter (fun c =>
    if used.contains c then false
    else labelOk case_sensitive qc cont mc c)

/-- Label-assignment loop of `_assign_labels` (`used` is the set of labels
consumed by earlier matches). -/
def assignAux (case_sensitive : Bool) (qc cont pool : List Char) :
    List SearchMatch → List Char → List SearchMatch
  | [], _ => []
  | m :: ms, used =>
    let mc := if case_sensitive then m.text else lowerChars m.text
    match availableLabels case_sensitive qc cont mc used pool with
    | [] => { m with label := none } :: assignAux case_sensitive qc cont pool ms used
    | c :: _ =>
      { m with label := some c } :: assignAux case_sensitive qc cont pool ms (c :: used)

/-- `SearchInterface._assign_labels` (`sq` is the stored, already case-folded
`search_query`). -/
def assignLabels (case_sensitive : Bool) (sq pool : List Char)
    (ms : List SearchMatch) : List SearchMatch :=
  let qc := if case_sensitive then sq else lowerChars sq
  assignAux case_sensitive qc (contChars case_sensitive ms) pool ms []

/-- Body of the `matches_list` loop of `search`: all new match objects
collected from the buckets whose key contains the (case-folded) query `sq`. -/
def matchesList (si : SearchInterface) (sq : List Char) : List SearchMatch :=
  si.word_index.flatMap (fun kb =>
    if isSubstring sq kb.1 then
      kb.2.filterMap (fun m =>
        match searchText si.case_sensitive m sq with
        | some p =>
          some { m with label := none, match_start := p,
                        match_end := p + sq.length }
        | none => none)
    else [])

/-- Deduplicated, position-sorted, direction-adjusted match list of `search`
(`unique_matches` after `sort` and the optional `reverse`). -/
def orderedMatches (si : SearchInterface) (sq : List Char) : List SearchMatch :=
  if si.reverse_search then
    (sortByPos (dedupMatches (matchesList si sq) [])).reverse
  else sortByPos (dedupMatches (matchesList si sq) [])

/-- `SearchInterface.search`. -/
def SearchInterface.search (si : SearchInterface) (query : List Char) :
    List SearchMatch :=
  let sq := if si.case_sensitive then query else lowerChars query
  if query.isEmpty then []
  else assignLabels si.case_sensitive sq si.label_characters (orderedMatches si sq)

/-- Whole pipeline: construct a `SearchInterface` and run one query. -/
def runSearch (pane : List Char) (rev : Bool) (seps : List Char) (cs : Bool)
    (pool : List Char) (q : List Char) : List SearchMatch :=
  (mkSearchInterface pane rev seps cs pool).search q

/-- Forget the `label` field of a match. -/
def stripLabel (m : SearchMatch) : SearchMatch := { m with label := none }

/-- Case folding used throughout the code: identity when case-sensitive,
`Char.toLower` otherwise. -/
def caseFold (case_sensitive : Bool) (c : Char) : Char :=
  if case_sensitive then c else c.toLower

/-- Specification form of the token scanner: the first maximal run is taken
with `takeWhile` and the rest of the line is processed recursively.  Provably
equal to `tokensAcc … none` (see `tokensAcc_none_eq_spec`); used only for
reasoning. -/
def tokensSpec (p : Char → Bool) : List Char → Nat → List (Nat × List Char)
  | [], _ => []
  | c :: cs, i =>
    if h : p c then tokensSpec p cs (i + 1)
    else
      (i, (c :: cs).takeWhile (fun d => !p d)) ::
        tokensSpec p ((c :: cs).dropWhile (fun d => !p d))
          (i + ((c :: cs).takeWhile (fun d => !p d)).length)
termination_by l _ => l.length
decreasing_by
  · simp
  · simp only [List.dropWhile_cons]
    simp [h]
    exact Nat.lt_succ_of_le (List.dropWhile_sublist _).length_le

/-- Flattened offset of the start of line `k` (sum of `len(line) + 1` over the
preceding lines). -/
def flattenPos (ls : List (List Char)) (k : Nat) : Nat :=
  ((ls.take k).map (fun l => l.length + 1)).sum

/-- All matches stored in the index, in bucket order. -/
def flattenIndex (idx : List (List Char × List SearchMatch)) : List SearchMatch :=
  idx.flatMap (fun kb => kb.2)

/-- The new match object `search` creates for one indexed match, when the query
occurs in its text (`sq` is the case-folded query). -/
def searchFilter (case_sensitive : Bool) (sq : List Char) (m : SearchMatch) :
    Option SearchMatch :=
  match searchText case_sensitive m sq with
  | some p =>
    some { m with label := none, match_start := p, match_end := p + sq.length }
  | none => none

/-- Separator-delimited sub-words of a token's text, with their offsets.
Stated from the claim's words for the copy-text resolution property. -/
def subWords (seps : List Char) (text : List Char) : List (Nat × List Char) :=
  tokens (fun c => seps.contains c) text

/-- The first sub-word whose span contains offset `i`. -/
def firstContaining (sws : List (Nat × List Char)) (i : Nat) : Option (List Char) :=
  (sws.find? (fun sw => decide (sw.1 ≤ i) && decide (i < sw.1 + sw.2.length))).map
    (fun sw => sw.2)

/-- The first sub-word beginning after offset `i`. -/
def firstAfter (sws : List (Nat × List Char)) (i : Nat) : Option (List Char) :=
  (sws.find? (fun sw => decide (i < sw.1))).map (fun sw => sw.2)

/-- The longest sub-word. -/
def longestSub (sws : List (Nat × List Char)) : List Char :=
  sws.foldl (fun best sw => if sw.2.length > best.length then sw.2 else best) []

/-- Copy-text resolution procedure as the specification states it: the
sub-word containing the occurrence's start offset, else the first sub-word
after it, else the longest sub-word. -/
def claimResolveCopy (seps text : List Char) (i : Nat) : List Char :=
  match firstContaining (subWords seps text) i with
  | some w => w
  | none =>
    match firstAfter (subWords seps text) i with
    | some w => w
    | none => longestSub (subWords seps text)

/-- Python `s.replace(a, r)` for a one-character needle `a`. -/
def replaceChar (a : Char) (r : List Char) : List Char → List Char
  | [] => []
  | c :: cs => (if c = a then r else [c]) ++ replaceChar a r cs

/-- Escaping performed by `escape_for_char_class` before the separator string
is interpolated into a regex character class: `\` and `]` are escaped, a
leading `^` is kept and the later `^`s are then escaped.  A hyphen is NOT
escaped. -/
def escapeForCharClass (s : List Char) : List Char :=
  let s2 := replaceChar ']' ['\\', ']'] (replaceChar '\\' ['\\', '\\'] s)
  match s2 with
  | '^' :: rest => '^' :: replaceChar '^' ['\\', '^'] rest
  | other => other

/-- Items of a regex character class with Python `re` semantics, parsed from
the class body (the text between `[` or `[^` and `]`): `\c` is the literal
`c`, `x-y` is the inclusive code-point range and a reversed range is a
compile error, a `-` at the start, at the end, or following a completed
range is itself a literal, and a trailing lone `\` is a compile error.
`none` models `re.error`. -/
def classItems : List Char → Option (List (Char × Char))
  | [] => some []
  | ['\\'] => none
  | '\\' :: a :: '-' :: [] => some [(a, a), ('-', '-')]
  | '\\' :: _ :: '-' :: '\\' :: [] => none
  | '\\' :: a :: '-' :: '\\' :: b :: rest =>
    if a.val ≤ b.val then (classItems rest).map (fun l => (a, b) :: l) else none
  | '\\' :: a :: '-' :: b :: rest =>
    if a.val ≤ b.val then (classItems rest).map (fun l => (a, b) :: l) else none
  | '\\' :: a :: rest => (classItems rest).map (fun l => (a, a) :: l)
  | a :: '-' :: [] => some [(a, a), ('-', '-')]
  | _ :: '-' :: '\\' :: [] => none
  | a :: '-' :: '\\' :: b :: rest =>
    if a.val ≤ b.val then (classItems rest).map (fun l => (a, b) :: l) else none
  | a :: '-' :: b :: rest =>
    if a.val ≤ b.val then (classItems rest).map (fun l => (a, b) :: l) else none
  | a :: rest => (classItems rest).map (fun l => (a, a) :: l)

/-- Membership of a character in a compiled class: inside one of the item
ranges, inverted when the class is negated. -/
def inClass (neg : Bool) (items : List (Char × Char)) (c : Char) : Bool :=
  let hit := items.any (fun ab =>
    decide (ab.1.val ≤ c.val) && decide (c.val ≤ ab.2.val))
  if neg then !hit else hit

/-- Compilation of a regex character class `[body]` with Python `re`
semantics: a leading `^` negates the class, and an empty remainder is a
compile error (the closing `]` would be consumed as a literal, leaving the
set unterminated).  `none` models `re.error`. -/
def compileClass : List Char → Option (Bool × List (Char × Char))
  | [] => none
  | ['^'] => none
  | '^' :: rest => (classItems rest).map (fun l => (true, l))
  | body => (classItems body).map (fun l => (false, l))

/-- Word-boundary predicate with faithful regex compilation:
`_get_word_pattern` compiles `\S+` when no separators are configured and
`[^{escaped}]+` otherwise, so a character is a boundary exactly when it is
whitespace, resp. not matched by the bracketed (negated) class.  `none`
models an `re.error` escaping `__init__`. -/
def wordBoundaryRe (seps : List Char) : Option (Char → Bool) :=
  if seps.isEmpty then some pyIsSpace
  else
    (compileClass ('^' :: escapeForCharClass seps)).map
      (fun nc c => !inClass nc.1 nc.2 c)

/-- Separator-capture predicate with faithful regex compilation:
`_build_word_index` compiles `[{escaped_non_ws}]+` over the non-whitespace
separators when there are any (inner `none`: no capture pattern), and that
class also keeps Python range semantics.  Outer `none` models `re.error`. -/
def sepPredRe (seps : List Char) : Option (Option (Char → Bool)) :=
  if seps.isEmpty then some none
  else if (nonWsSeps seps).isEmpty then some none
  else
    (compileClass (escapeForCharClass (nonWsSeps seps))).map
      (fun nc => some (fun c => inClass nc.1 nc.2 c))

/-- Leading separator capture for a compiled capture predicate `p`: the
maximal run of `p`-characters immediately before offset `wstart`. -/
def leadingSepP (p : Char → Bool) (line : List Char) (wstart : Nat) : List Char :=
  ((line.take wstart).reverse.takeWhile p).reverse

/-- Trailing separator capture for a compiled capture predicate `p`. -/
def trailingSepP (p : Char → Bool) (line : List Char) (wend : Nat) : List Char :=
  (line.drop wend).takeWhile p

/-- Match built for one word of one line in `_build_word_index` when the
capture pattern carries compiled class semantics (`sp` is the optional
separator-capture predicate; `none` captures nothing). -/
def mkLineMatchP (sp : Option (Char → Bool)) (pos lineIdx : Nat)
    (line : List Char) (tok : Nat × List Char) : SearchMatch :=
  let lead := match sp with
    | some p => leadingSepP p line tok.1
    | none => []
  let trail := match sp with
    | some p => trailingSepP p line (tok.1 + tok.2.length)
    | none => []
  { text := lead ++ tok.2 ++ trail
    start_pos := pos + (tok.1 - lead.length)
    end_pos := pos + tok.1 + tok.2.length
    line := lineIdx
    col := tok.1 - lead.length
    label := none
    match_start := 0
    match_end := 0
    copy_text := tok.2 }

/-- All matches of one line for compiled predicates, in scan order. -/
def buildLineMatchesP (wb : Char → Bool) (sp : Option (Char → Bool))
    (pos lineIdx : Nat) (line : List Char) : List SearchMatch :=
  (tokens wb line).map (mkLineMatchP sp pos lineIdx line)

/-- All matches of all lines for compiled predicates, in build order. -/
def buildMatchesP (wb : Char → Bool) (sp : Option (Char → Bool)) :
    List (List Char) → Nat → Nat → List SearchMatch
  | [], _, _ => []
  | line :: rest, lineIdx, pos =>
    buildLineMatchesP wb sp pos lineIdx line ++
      buildMatchesP wb sp rest (lineIdx + 1) (pos + line.length + 1)

/-- Construction (`SearchInterface.__init__`) with faithful regex
compilation: `none` models an `re.error` raised by `re.compile` inside
`_build_word_index` (so construction throws). -/
def mkSearchInterfaceRe (pane_content : List Char) (reverse_search : Bool)
    (word_separators : List Char) (case_sensitive : Bool)
    (label_characters : List Char) : Option SearchInterface :=
  match wordBoundaryRe word_separators, sepPredRe word_separators with
  | some wb, some sp =>
    let lines := splitLines pane_content
    some { lines
           reverse_search
           word_separators
           case_sensitive
           label_characters :=
             if label_characters.isEmpty then DEFAULT_LABELS
             else label_characters
           word_index :=
             buildIndex case_sensitive (buildMatchesP wb sp lines 0 0) }
  | _, _ => none

/-- Whole pipeline with faithful regex compilation (`none`: construction
raised `re.error` before any query could run). -/
def runSearchRe (pane : List Char) (rev : Bool) (seps : List Char) (cs : Bool)
    (pool : List Char) (q : List Char) : Option (List SearchMatch) :=
  (mkSearchInterfaceRe pane rev seps cs pool).map (fun si => si.search q)

/-- One hundred distinct words `word00` … `word99`, all containing `word`. -/
def c7words : List (List Char) :=
  (List.range 100).map (fun n =>
    "word".toList ++ [Char.ofNat (48 + n / 10), Char.ofNat (48 + n % 10)])

/-- The hundred words joined by single spaces. -/
def c7source : List Char := (c7words.intersperse [' ']).flatten

/-- The single occurrence returned for source `"hello world"`, query `"h"`,
default configuration. -/
def exHelloMatch : SearchMatch :=
  { text := "hello".toList, start_pos := 0, end_pos := 5, line := 0, col := 0,
    label := some 'a', match_start := 0, match_end := 1,
    copy_text := "hello".toList }

/-- The single occurrence returned for source `"12ab-cd34"`, separators
`"0-9"`, query `"ab"` (reverse off, case-insensitive, default labels): the
compiled class `[^0-9]+` has range semantics, so every digit is a boundary
and the adjacent digit runs `12` and `34` are captured as separators. -/
def exRangeMatch : SearchMatch :=
  { text := "12ab-cd34".toList, start_pos := 0, end_pos := 7, line := 0,
    col := 0, label := some 's', match_start := 2, match_end := 4,
    copy_text := "ab-cd".toList }

/-- Expected label column for the hundred-word example: the default pool minus
the case variants of `w`, `o`, `r`, `d` (44 labels), then `none`. -/
def c7labels : List (Option Char) :=
  (DEFAULT_LABELS.filter (fun c => !("word".toList.contains c.toLower))).map some
    ++ List.replicate 56 none

theorem assignAux_cons (cs : Bool) (qc cont pool : List Char) (m : SearchMatch)
    (ms : List SearchMatch) (used : List Char) :
    assignAux cs qc cont pool (m :: ms) used =
      match availableLabels cs qc cont
          (if cs then m.text else lowerChars m.text) used pool with
      | [] => { m with label := none } :: assignAux cs qc cont pool ms used
      | c :: _ =>
        { m with label := some c } :: assignAux cs qc cont pool ms (c :: used) := rfl

theorem assignAux_map_strip (cs : Bool) (qc cont pool : List Char)
    (ms : List SearchMatch) :
    ∀ used, (assignAux cs qc cont pool ms used).map stripLabel = ms.map stripLabel := by
  induction ms with
  | nil => intro used; rfl
  | cons m ms ih =>
    intro used
    rw [assignAux_cons]
    cases havail : availableLabels cs qc cont
        (if cs then m.text else lowerChars m.text) used pool with
    | nil => simpa [stripLabel] using ih used
    | cons c rest => simpa [stripLabel] using ih (c :: used)

theorem assignLabels_map_strip (cs : Bool) (sq pool : List Char)
    (ms : List SearchMatch) :
    (assignLabels cs sq pool ms).map stripLabel = ms.map stripLabel := by
  unfold assignLabels
  exact assignAux_map_strip _ _ _ _ _ _

theorem length_assignLabels (cs : Bool) (sq pool : List Char)
    (ms : List SearchMatch) :
    (assignLabels cs sq pool ms).length = ms.length := by
  have h := congrArg List.length (assignLabels_map_strip cs sq pool ms)
  simpa using h

theorem mem_assignAux_strip (cs : Bool) (qc cont pool : List Char)
    (ms : List SearchMatch) :
    ∀ used m', m' ∈ assignAux cs qc cont pool ms used →
      ∃ m ∈ ms, stripLabel m' = stripLabel m := by
  induction ms with
  | nil => intro used m' h; cases h
  | cons m ms ih =>
    intro used m' h
    rw [assignAux_cons] at h
    cases havail : availableLabels cs qc cont
        (if cs then m.text else lowerChars m.text) used pool with
    | nil =>
      rw [havail] at h
      rcases List.mem_cons.mp h with h | h
      · exact ⟨m, List.mem_cons_self .., by simp [h, stripLabel]⟩
      · obtain ⟨m₀, hm₀, he⟩ := ih used m' h
        exact ⟨m₀, List.mem_cons_of_mem _ hm₀, he⟩
    | cons c rest =>
      rw [havail] at h
      rcases List.mem_cons.mp h with h | h
      · exact ⟨m, List.mem_cons_self .., by simp [h, stripLabel]⟩
      · obtain ⟨m₀, hm₀, he⟩ := ih (c :: used) m' h
        exact ⟨m₀, List.mem_cons_of_mem _ hm₀, he⟩

theorem mem_availableLabels {cs : Bool} {qc cont mc used pool : List Char}
    {c : Char} (h : c ∈ availableLabels cs qc cont mc used pool) :
    c ∈ pool ∧ used.contains c = false ∧ labelOk cs qc cont mc c = true := by
  unfold availableLabels at h
  obtain ⟨hp, hcond⟩ := List.mem_filter.mp h
  cases hu : used.contains c with
  | true => rw [hu] at hcond; simp at hcond
  | false =>
    rw [hu] at hcond
    exact ⟨hp, rfl, by simpa using hcond⟩

theorem assignAux_label_sound (cs : Bool) (qc cont pool : List Char)
    (ms : List SearchMatch) :
    ∀ used m', m' ∈ assignAux cs qc cont pool ms used →
      ∀ c, m'.label = some c →
        c ∈ pool ∧
          labelOk cs qc cont (if cs then m'.text else lowerChars m'.text) c = true := by
  induction ms with
  | nil => intro used m' h; cases h
  | cons m ms ih =>
    intro used m' h c hc
    rw [assignAux_cons] at h
    cases havail : availableLabels cs qc cont
        (if cs then m.text else lowerChars m.text) used pool with
    | nil =>
      rw [havail] at h
      rcases List.mem_cons.mp h with h | h
      · subst h; simp at hc
      · exact ih used m' h c hc
    | cons c0 rest =>
      rw [havail] at h
      rcases List.mem_cons.mp h with h | h
      · subst h
        have hc' : c0 = c := by simpa using hc
        subst hc'
        have hmem : c0 ∈ availableLabels cs qc cont
            (if cs then m.text else lowerChars m.text) used pool := by
          rw [havail]; exact List.mem_cons_self ..
        obtain ⟨hp, _, hok⟩ := mem_availableLabels hmem
        exact ⟨hp, by simpa using hok⟩
      · exact ih (c0 :: used) m' h c hc

theorem assignAux_labels_nodup (cs : Bool) (qc cont pool : List Char)
    (ms : List SearchMatch) :
    ∀ used,
      ((assignAux cs qc cont pool ms used).filterMap SearchMatch.label).Nodup ∧
      ∀ c ∈ (assignAux cs qc cont pool ms used).filterMap SearchMatch.label,
        used.contains c = false := by
  induction ms with
  | nil => intro used; exact ⟨List.nodup_nil, by intro c hc; cases hc⟩
  | cons m ms ih =>
    intro used
    rw [assignAux_cons]
    cases havail : availableLabels cs qc cont
        (if cs then m.text else lowerChars m.text) used pool with
    | nil =>
      obtain ⟨h1, h2⟩ := ih used
      constructor
      · simpa using h1
      · intro c hc
        exact h2 c (by simpa using hc)
    | cons c0 rest =>
      obtain ⟨h1, h2⟩ := ih (c0 :: used)
      have hc0 : c0 ∈ availableLabels cs qc cont
          (if cs then m.text else lowerChars m.text) used pool := by
        rw [havail]; exact List.mem_cons_self ..
      obtain ⟨_, hc0used, _⟩ := mem_availableLabels hc0
      constructor
      · simp only [List.filterMap_cons]
        refine List.Nodup.cons ?_ h1
        intro hmem
        have := h2 c0 hmem
        simp at this
      · intro c hc
        simp only [List.filterMap_cons] at hc
        rcases List.mem_cons.mp hc with h | h
        · subst h; exact hc0used
        · have h3 := h2 c h
          simp at h3
          simpa using h3.2

theorem search_eq_assign (si : SearchInterface) (query : List Char)
    (hq : query ≠ []) :
    si.search query =
      assignLabels si.case_sensitive
        (if si.case_sensitive then query else lowerChars query)
        si.label_characters
        (orderedMatches si
          (if si.case_sensitive then query else lowerChars query)) := by
  have hemp : query.isEmpty = false := by
    cases query with
    | nil => exact absurd rfl hq
    | cons c cs => rfl
  unfold SearchInterface.search
  simp [hemp]

/-- C2: for every source text, configuration and query, no two occurrences in
the result of one query evaluation carry the same non-null label. -/
theorem label_uniqueness (pane : List Char) (rev : Bool) (seps : List Char)
    (cs : Bool) (pool q : List Char) :
    ((runSearch pane rev seps cs pool q).filterMap SearchMatch.label).Nodup := by
  by_cases hq : q = []
  · subst hq
    simp [runSearch, SearchInterface.search]
  · rw [runSearch, search_eq_assign _ _ hq]
    unfold assignLabels
    exact (assignAux_labels_nodup _ _ _ _ _ _).1

/-- C8: determinism — for a fixed source text, configuration and query, two
runs of index construction followed by query evaluation produce identical
ordered occurrence lists (every field, labels included); the embedding is a
pure function, so both runs are definitionally the same value. -/
theorem search_deterministic (pane : List Char) (rev : Bool) (seps : List Char)
    (cs : Bool) (pool q : List Char) :
    (mkSearchInterface pane rev seps cs pool).search q =
      (mkSearchInterface pane rev seps cs pool).search q ∧
    mkSearchInterface pane rev seps cs pool =
      mkSearchInterface pane rev seps cs pool :=
  ⟨rfl, rfl⟩

theorem char_toNat_ofNat_of_valid {n : Nat} (h : n.isValidChar) :
    (Char.ofNat n).toNat = n := by
  rw [Char.ofNat, dif_pos h]
  rfl

theorem char_toLower_toLower (c : Char) : c.toLower.toLower = c.toLower := by
  by_cases h : c.toNat ≥ 65 ∧ c.toNat ≤ 90
  · have h1 : c.toLower = Char.ofNat (c.toNat + 32) := by
      unfold Char.toLower
      rw [if_pos h]
    have hval : (c.toNat + 32).isValidChar := Or.inl (by omega)
    have h2 : (Char.ofNat (c.toNat + 32)).toNat = c.toNat + 32 :=
      char_toNat_ofNat_of_valid hval
    rw [h1]
    unfold Char.toLower
    rw [h2, if_neg (by omega)]
  · have h1 : c.toLower = c := by
      unfold Char.toLower
      rw [if_neg h]
    rw [h1, h1]

theorem mem_setAdd_self (s : List Char) (c : Char) : c ∈ setAdd s c := by
  unfold setAdd
  by_cases h : s.contains c
  · rw [if_pos h]
    exact List.mem_of_elem_eq_true h
  · rw [if_neg h]
    simp

theorem mem_setAdd_of_mem {s : List Char} {d : Char} (c : Char) (h : d ∈ s) :
    d ∈ setAdd s c := by
  unfold setAdd
  by_cases hc : s.contains c
  · rwa [if_pos hc]
  · rw [if_neg hc]
    exact List.mem_append_left _ h

theorem contChars_mem_acc (cs : Bool) (ms : List SearchMatch) :
    ∀ (acc : List Char) (d : Char), d ∈ acc →
      d ∈ ms.foldl (fun s m =>
        if h : m.match_end < m.text.length then
          setAdd s (if cs then m.text.get ⟨m.match_end, h⟩
                    else (m.text.get ⟨m.match_end, h⟩).toLower)
        else s) acc := by
  induction ms with
  | nil => intro acc d hd; simpa using hd
  | cons m ms ih =>
    intro acc d hd
    simp only [List.foldl_cons]
    apply ih
    by_cases h : m.match_end < m.text.length
    · rw [dif_pos h]
      exact mem_setAdd_of_mem _ hd
    · rwa [dif_neg h]

theorem mem_contChars (cs : Bool) (ms : List SearchMatch) :
    ∀ m ∈ ms, ∀ (h : m.match_end < m.text.length),
      (if cs then m.text.get ⟨m.match_end, h⟩
       else (m.text.get ⟨m.match_end, h⟩).toLower) ∈ contChars cs ms := by
  suffices haux : ∀ (acc : List Char), ∀ m ∈ ms, ∀ (h : m.match_end < m.text.length),
      (if cs then m.text.get ⟨m.match_end, h⟩
       else (m.text.get ⟨m.match_end, h⟩).toLower) ∈ ms.foldl (fun s m =>
        if h : m.match_end < m.text.length then
          setAdd s (if cs then m.text.get ⟨m.match_end, h⟩
                    else (m.text.get ⟨m.match_end, h⟩).toLower)
        else s) acc by
    intro m hm h
    exact haux [] m hm h
  induction ms with
  | nil => intro acc m hm; cases hm
  | cons m0 ms ih =>
    intro acc m hm h
    rcases List.mem_cons.mp hm with rfl | hm
    · simp only [List.foldl_cons, dif_pos h]
      exact contChars_mem_acc cs ms _ _ (mem_setAdd_self _ _)
    · simp only [List.foldl_cons]
      exact ih _ m hm h

theorem mk_case_sensitive (p : List Char) (r : Bool) (s : List Char) (c : Bool)
    (lc : List Char) : (mkSearchInterface p r s c lc).case_sensitive = c := rfl

theorem mk_reverse_search (p : List Char) (r : Bool) (s : List Char) (c : Bool)
    (lc : List Char) : (mkSearchInterface p r s c lc).reverse_search = r := rfl

theorem mk_label_characters (p : List Char) (r : Bool) (s : List Char) (c : Bool)
    (lc : List Char) : (mkSearchInterface p r s c lc).label_characters =
      if lc.isEmpty then DEFAULT_LABELS else lc := rfl

theorem mk_word_index (p : List Char) (r : Bool) (s : List Char) (c : Bool)
    (lc : List Char) : (mkSearchInterface p r s c lc).word_index =
      buildIndex c (buildMatches s (splitLines p) 0 0) := rfl

theorem mk_lines (p : List Char) (r : Bool) (s : List Char) (c : Bool)
    (lc : List Char) : (mkSearchInterface p r s c lc).lines = splitLines p := rfl

theorem get_congr {l l' : List Char} {i i' : Nat} (hl : l = l') (hi : i = i')
    (h : i < l.length) (h' : i' < l'.length) : l.get ⟨i, h⟩ = l'.get ⟨i', h'⟩ := by
  subst hl
  subst hi
  rfl

theorem labelOk_bans_cs {qc cont mc : List Char} {l : Char}
    (hok : labelOk true qc cont mc l = true) : l ∉ qc ∧ l ∉ cont := by
  unfold labelOk at hok
  simp at hok
  exact ⟨hok.1.1, hok.1.2⟩

theorem labelOk_bans_ci {qc cont mc : List Char} {l : Char}
    (hok : labelOk false qc cont mc l = true) :
    l.toLower ∉ qc ∧ l.toLower ∉ cont := by
  unfold labelOk at hok
  simp at hok
  exact ⟨hok.1.1, hok.1.2⟩

/-- C1: an assigned label is never equal (case-folded unless case-sensitive)
to the character immediately following the occurrence's matched span within
its own text, nor to any character of the current query. -/
theorem no_accidental_continuation (pane : List Char) (rev : Bool)
    (seps : List Char) (cs : Bool) (pool q : List Char) :
    ∀ m ∈ runSearch pane rev seps cs pool q, ∀ l, m.label = some l →
      (∀ c ∈ q, caseFold cs l ≠ caseFold cs c) ∧
      (∀ (h : m.match_end < m.text.length),
        caseFold cs l ≠ caseFold cs (m.text.get ⟨m.match_end, h⟩)) := by
  intro m hm l hl
  by_cases hq : q = []
  · subst hq
    simp [runSearch, SearchInterface.search] at hm
  rw [runSearch, search_eq_assign _ _ hq] at hm
  simp only [assignLabels] at hm
  obtain ⟨hpool, hok⟩ := assignAux_label_sound _ _ _ _ _ _ m hm l hl
  obtain ⟨m₀, hm₀, hstrip⟩ := mem_assignAux_strip _ _ _ _ _ _ m hm
  have htext : m.text = m₀.text := by
    have h2 := congrArg SearchMatch.text hstrip
    simpa [stripLabel] using h2
  have hmend : m.match_end = m₀.match_end := by
    have h2 := congrArg SearchMatch.match_end hstrip
    simpa [stripLabel] using h2
  have h₀of : ∀ (h : m.match_end < m.text.length), m₀.match_end < m₀.text.length := by
    intro h
    rw [← htext, ← hmend]
    exact h
  cases cs with
  | true =>
    simp only [mk_case_sensitive, reduceIte] at hok hm₀
    obtain ⟨hbq, hbc⟩ := labelOk_bans_cs hok
    constructor
    · intro c hc heq
      simp only [caseFold, reduceIte] at heq
      exact hbq (heq ▸ hc)
    · intro h heq
      have h₀ := h₀of h
      have hnext := mem_contChars true _ m₀ hm₀ h₀
      simp only [reduceIte] at hnext
      simp only [caseFold, reduceIte] at heq
      have hgets : m.text.get ⟨m.match_end, h⟩ = m₀.text.get ⟨m₀.match_end, h₀⟩ :=
        get_congr htext hmend h h₀
      rw [hgets] at heq
      exact hbc (heq ▸ hnext)
  | false =>
    simp only [mk_case_sensitive, Bool.false_eq_true, reduceIte] at hok hm₀
    obtain ⟨hbq, hbc⟩ := labelOk_bans_ci hok
    constructor
    · intro c hc heq
      simp only [caseFold, Bool.false_eq_true, reduceIte] at heq
      have h1 : c.toLower ∈ lowerChars q := List.mem_map_of_mem _ hc
      have h2 : (c.toLower).toLower ∈ lowerChars (lowerChars q) :=
        List.mem_map_of_mem _ h1
      rw [char_toLower_toLower] at h2
      rw [← heq] at h2
      exact hbq h2
    · intro h heq
      have h₀ := h₀of h
      have hnext := mem_contChars false _ m₀ hm₀ h₀
      simp only [Bool.false_eq_true, reduceIte] at hnext
      simp only [caseFold, Bool.false_eq_true, reduceIte] at heq
      have hgets : m.text.get ⟨m.match_end, h⟩ = m₀.text.get ⟨m₀.match_end, h₀⟩ :=
        get_congr htext hmend h h₀
      rw [hgets] at heq
      exact hbc (heq ▸ hnext)

/-- C9 at the failing input: construction with word separators `"z-a"` raises
`re.error` even on the empty source text — the hyphen is not escaped, so
`_get_word_pattern` compiles `[^z-a]+` whose reversed range is invalid — so
construction is not total and the claim's "neither operation ever throws"
fails; with the well-formed class of separators `"a-z"` the same construction
succeeds and every query on the empty source returns the empty list. -/
theorem construction_error_on_reversed_range :
    mkSearchInterfaceRe [] true "z-a".toList false [] = none ∧
    (mkSearchInterfaceRe [] true "a-z".toList false []).isSome = true ∧
    runSearchRe [] true "a-z".toList false [] "x".toList = some [] := by
  decide

/-- Witness for C1 at a concrete input: source `"hello world"`, query `"h"`,
default configuration; the single occurrence is labelled `'a'`. -/
theorem no_accidental_continuation_witness :
    exHelloMatch ∈ runSearch "hello world".toList true [] false [] "h".toList ∧
    (∀ c ∈ "h".toList, caseFold false 'a' ≠ caseFold false c) := by
  have hmem : exHelloMatch ∈
      runSearch "hello world".toList true [] false [] "h".toList := by decide
  exact ⟨hmem,
    (no_accidental_continuation "hello world".toList true [] false [] "h".toList
      _ hmem 'a' rfl).1⟩

/-- C3 counterexample: for source `"aaa"` and query `"a"` the code returns a
single occurrence, matched at offset 0 only, although the query also occurs at
offsets 1 and 2 of the candidate's text. -/
theorem every_position_counterexample :
    (runSearch "aaa".toList true [] false [] "a".toList).map
        (fun m => (m.match_start, m.match_end)) = [(0, 1)] ∧
    "a".toList.isPrefixOf ("aaa".toList.drop 1) = true ∧
    "a".toList.isPrefixOf ("aaa".toList.drop 2) = true := by
  decide

/-- C4: evaluation of the code at the spec's example — source
`"foo-bar foo_bar"`, separators `" -"`, query `"bar"`.  The tokenizer splits
on the configured separators and re-attaches adjacent separator runs, so the
two occurrences have `text = "foo_bar"` and `text = "-bar"`; no occurrence has
`text = "foo-bar"` as the claim (and the repository's own test) requires. -/
theorem separator_tokens_at_example :
    (runSearch "foo-bar foo_bar".toList true " -".toList false [] "bar".toList).map
        (fun m => (m.text, m.copy_text)) =
      [("foo_bar".toList, "foo_bar".toList), ("-bar".toList, "bar".toList)] := by
  decide

set_option maxHeartbeats 8000000 in
theorem c7_labels_eq :
    (runSearch c7source true [] false [] "word".toList).map SearchMatch.label =
      c7labels := by
  decide

/-- C7 counterexample: for the concrete source `word00 … word99` (100 distinct
words all containing `word`), query `"word"` under the default 52-character
pool, the result has 100 occurrences but the occurrence at index 44 (< 52) in
priority order already has no label, because the 8 case variants of the query
characters are banned from the pool. -/
theorem fifty_two_labels_counterexample :
    (runSearch c7source true [] false [] "word".toList).length = 100 ∧
    ((runSearch c7source true [] false [] "word".toList).map
        SearchMatch.label).get? 44 = some none := by
  constructor
  · have h := congrArg List.length c7_labels_eq
    rw [List.length_map] at h
    rw [h]
    rfl
  · rw [c7_labels_eq]
    rfl

/-- C7 amended: under the default pool the 8 case variants of the query's
characters `w`,`o`,`r`,`d` are banned, leaving 44 assignable labels; for the
100-word source `word00 … word99` the first 44 occurrences in priority order
receive distinct labels and the remaining 56 occurrences have `label = none`. -/
theorem fortyfour_labels :
    (((runSearch c7source true [] false [] "word".toList).map
        SearchMatch.label).take 44).all Option.isSome = true ∧
    (((runSearch c7source true [] false [] "word".toList).map
        SearchMatch.label).drop 44).all (fun o => o = none) = true ∧
    ((runSearch c7source true [] false [] "word".toList).filterMap
        SearchMatch.label).Nodup ∧
    (runSearch c7source true [] false [] "word".toList).length = 100 := by
  have hfm : (runSearch c7source true [] false [] "word".toList).filterMap
      SearchMatch.label =
      ((runSearch c7source true [] false [] "word".toList).map
        SearchMatch.label).filterMap id := by
    rw [List.filterMap_map]
    rfl
  refine ⟨?_, ?_, ?_, ?_⟩
  · rw [c7_labels_eq]; rfl
  · rw [c7_labels_eq]; rfl
  · rw [hfm, c7_labels_eq]; decide
  · have h := congrArg List.length c7_labels_eq
    rw [List.length_map] at h
    rw [h]
    rfl

theorem tokensAcc_some_eq (p : Char → Bool) :
    ∀ (l : List Char) (i s : Nat) (acc : List Char),
      tokensAcc p l i (some (s, acc)) =
        (s, acc.reverse ++ l.takeWhile (fun d => !p d)) ::
          tokensAcc p (l.dropWhile (fun d => !p d))
            (i + (l.takeWhile (fun d => !p d)).length) none := by
  intro l
  induction l with
  | nil => intro i s acc; simp [tokensAcc]
  | cons c cs ih =>
    intro i s acc
    by_cases hc : p c
    · have hc' : p c = true := hc
      simp [tokensAcc, hc', List.takeWhile_cons, List.dropWhile_cons]
    · have hc' : p c = false := by simpa using hc
      have h1 : tokensAcc p (c :: cs) i (some (s, acc)) =
          tokensAcc p cs (i + 1) (some (s, c :: acc)) := by
        simp [tokensAcc, hc']
      rw [h1, ih]
      simp [hc', List.takeWhile_cons, List.dropWhile_cons, List.reverse_cons,
        List.append_assoc, Nat.add_comm, Nat.add_left_comm, Nat.add_assoc]

theorem tokensAcc_none_eq_spec (p : Char → Bool) :
    ∀ (l : List Char) (i : Nat), tokensAcc p l i none = tokensSpec p l i := by
  intro l i
  induction l, i using tokensSpec.induct p with
  | case1 i => simp [tokensAcc, tokensSpec]
  | case2 c cs i h ih =>
    have hc' : p c = true := h
    rw [tokensSpec]
    rw [dif_pos h]
    simpa [tokensAcc, hc'] using ih
  | case3 c cs i h ih =>
    have hc' : p c = false := by simpa using h
    have htw : (c :: cs).takeWhile (fun d => !p d) =
        c :: cs.takeWhile (fun d => !p d) := by
      simp [List.takeWhile_cons, hc']
    have hdw : (c :: cs).dropWhile (fun d => !p d) =
        cs.dropWhile (fun d => !p d) := by
      simp [List.dropWhile_cons, hc']
    have h1 : tokensAcc p (c :: cs) i none =
        tokensAcc p cs (i + 1) (some (i, [c])) := by
      simp [tokensAcc, hc']
    rw [htw, hdw, List.length_cons] at ih
    rw [h1, tokensAcc_some_eq, tokensSpec, dif_neg h, htw, hdw,
      List.length_cons]
    have harith : i + 1 + (cs.takeWhile (fun d => !p d)).length =
        i + ((cs.takeWhile (fun d => !p d)).length + 1) := by omega
    rw [harith, ih]
    simp

theorem tokens_eq_spec (p : Char → Bool) (l : List Char) :
    tokens p l = tokensSpec p l 0 := tokensAcc_none_eq_spec p l 0

theorem tokensSpec_sound (p : Char → Bool) :
    ∀ (l : List Char) (i : Nat), ∀ sw ∈ tokensSpec p l i,
      i ≤ sw.1 ∧ sw.2 ≠ [] ∧ (∀ c ∈ sw.2, p c = false) ∧
      (l.drop (sw.1 - i)).take sw.2.length = sw.2 ∧
      sw.1 + sw.2.length ≤ i + l.length := by
  intro l i
  induction l, i using tokensSpec.induct p with
  | case1 i => intro sw hsw; simp [tokensSpec] at hsw
  | case2 c cs i h ih =>
    intro sw hsw
    rw [tokensSpec, dif_pos h] at hsw
    obtain ⟨h1, h2, h3, h4, h5⟩ := ih sw hsw
    refine ⟨by omega, h2, h3, ?_, by simp; omega⟩
    have hk : sw.1 - i = (sw.1 - (i + 1)) + 1 := by omega
    rw [hk]
    simpa using h4
  | case3 c cs i h ih =>
    intro sw hsw
    have hc' : p c = false := by simpa using h
    rw [tokensSpec, dif_neg h] at hsw
    set tw := (c :: cs).takeWhile (fun d => !p d) with htwdef
    set dw := (c :: cs).dropWhile (fun d => !p d) with hdwdef
    have hsplit : tw ++ dw = c :: cs := List.takeWhile_append_dropWhile ..
    have hlen : tw.length + dw.length = (c :: cs).length := by
      rw [← List.length_append, hsplit]
    rcases List.mem_cons.mp hsw with rfl | hsw
    · refine ⟨Nat.le_refl _, ?_, ?_, ?_, ?_⟩
      · simp only [htwdef]
        simp [List.takeWhile_cons, hc']
      · intro d hd
        rw [htwdef] at hd
        have := List.mem_takeWhile_imp hd
        simpa using this
      · simp only [Nat.sub_self, List.drop_zero]
        rw [← hsplit, List.take_left]
      · simp only []
        omega
    · obtain ⟨h1, h2, h3, h4, h5⟩ := ih sw hsw
      refine ⟨by omega, h2, h3, ?_, by omega⟩
      have hk : sw.1 - i = tw.length + (sw.1 - (i + tw.length)) := by omega
      rw [hk, ← hsplit, List.drop_append]
      exact h4

theorem tokensSpec_pairwise (p : Char → Bool) :
    ∀ (l : List Char) (i : Nat),
      (tokensSpec p l i).Pairwise (fun a b => a.1 + a.2.length ≤ b.1) := by
  intro l i
  induction l, i using tokensSpec.induct p with
  | case1 i => simp [tokensSpec]
  | case2 c cs i h ih =>
    rw [tokensSpec, dif_pos h]
    exact ih
  | case3 c cs i h ih =>
    rw [tokensSpec, dif_neg h]
    refine List.Pairwise.cons ?_ ih
    intro sw hsw
    have h1 := (tokensSpec_sound p _ _ sw hsw).1
    simpa using h1

theorem leadingSep_decomp (q line : List Char) (wstart : Nat)
    (hws : wstart ≤ line.length) :
    ∃ u, line.take wstart = u ++ leadingSep q line wstart ∧
      u.length + (leadingSep q line wstart).length = wstart ∧
      ∀ c ∈ leadingSep q line wstart, q.contains c = true := by
  unfold leadingSep
  refine ⟨((line.take wstart).reverse.dropWhile (fun c => q.contains c)).reverse,
    ?_, ?_, ?_⟩
  · conv_lhs => rw [← List.reverse_reverse (line.take wstart),
      ← List.takeWhile_append_dropWhile (fun c => q.contains c)
        (line.take wstart).reverse]
    rw [List.reverse_append]
  · have hsum : ((line.take wstart).reverse.takeWhile (fun c => q.contains c)).length +
        ((line.take wstart).reverse.dropWhile (fun c => q.contains c)).length =
        (line.take wstart).length := by
      rw [← List.length_append, List.takeWhile_append_dropWhile,
        List.length_reverse]
    have htl : (line.take wstart).length = wstart := by
      rw [List.length_take]
      omega
    simp only [List.length_reverse]
    omega
  · intro c hc
    rw [List.mem_reverse] at hc
    exact List.mem_takeWhile_imp hc

theorem trailingSep_decomp (q line : List Char) (wend : Nat) :
    ∃ rest, line.drop wend = trailingSep q line wend ++ rest ∧
      ∀ c ∈ trailingSep q line wend, q.contains c = true :=
  ⟨(line.drop wend).dropWhile (fun c => q.contains c),
    (List.takeWhile_append_dropWhile ..).symm,
    fun _ hc => List.mem_takeWhile_imp hc⟩

theorem leadingSep_length_le_gap (q line : List Char) (p : Char → Bool)
    (hqp : ∀ c, q.contains c = true → p c = true)
    (aS : Nat) (aW : List Char) (hWne : aW ≠ [])
    (hWch : ∀ c ∈ aW, p c = false)
    (hslice : (line.drop aS).take aW.length = aW)
    (s' : Nat) (hgap : aS + aW.length ≤ s') (hs' : s' ≤ line.length) :
    (leadingSep q line s').length + (aS + aW.length) ≤ s' := by
  by_contra hcon
  push_neg at hcon
  obtain ⟨u, hu, hulen, hch⟩ := leadingSep_decomp q line s' hs'
  have hlenlead : s' < (leadingSep q line s').length + (aS + aW.length) := hcon
  have hline : line = line.take aS ++ aW ++ (line.drop aS).drop aW.length := by
    conv_lhs => rw [← List.take_append_drop aS line,
      ← List.take_append_drop aW.length (line.drop aS), hslice]
    rw [List.append_assoc]
  have hlenA : (line.take aS).length = aS := by
    rw [List.length_take]
    omega
  have hk1 : s' = (line.take aS).length + (s' - aS) := by omega
  have hk2 : s' - aS = aW.length + (s' - (aS + aW.length)) := by omega
  have htake : line.take s' =
      (line.take aS ++ aW) ++ ((line.drop aS).drop aW.length).take
        (s' - (aS + aW.length)) := by
    conv_lhs => rw [hline, List.append_assoc, hk1, List.take_append, hk2,
      List.take_append]
    rw [List.append_assoc]
  set lead := leadingSep q line s' with hleaddef
  set B := ((line.drop aS).drop aW.length).take (s' - (aS + aW.length)) with hBdef
  have hBlen : B.length = s' - (aS + aW.length) := by
    rw [hBdef, List.length_take]
    simp only [List.length_drop]
    omega
  have hul : u ++ lead = (line.take aS ++ aW) ++ B := by rw [← hu, htake]
  have hsufl : lead <:+ (line.take aS ++ aW) ++ B := ⟨u, hul⟩
  have hsufB : B <:+ (line.take aS ++ aW) ++ B := ⟨line.take aS ++ aW, rfl⟩
  rcases List.suffix_or_suffix_of_suffix hsufl hsufB with hcase | hcase
  · have := hcase.length_le
    omega
  · obtain ⟨lead', hlead'⟩ := hcase
    have hlead'len : lead'.length + B.length = lead.length := by
      rw [← List.length_append, hlead']
    have hlead'ne : lead' ≠ [] := by
      intro h0
      rw [h0] at hlead'len
      simp at hlead'len
      omega
    obtain ⟨x, hx⟩ := Option.isSome_iff_exists.mp
      (List.getLast?_isSome.mpr hlead'ne)
    have hxlead : x ∈ lead := by
      rw [← hlead']
      exact List.mem_append_left _ (List.mem_of_getLast?_eq_some hx)
    have hxq : q.contains x = true := hch x hxlead
    have heqA : u ++ lead' = line.take aS ++ aW := by
      have hh : (u ++ lead') ++ B = (line.take aS ++ aW) ++ B := by
        rw [List.append_assoc, hlead', hul]
      exact List.append_cancel_right hh
    have hxA : (u ++ lead').getLast? = some x := by
      rw [List.getLast?_append_of_ne_nil _ hlead'ne]
      exact hx
    have hxW : aW.getLast? = some x := by
      rw [heqA, List.getLast?_append_of_ne_nil _ hWne] at hxA
      exact hxA
    have hxmemW : x ∈ aW := List.mem_of_getLast?_eq_some hxW
    have := hWch x hxmemW
    rw [hqp x hxq] at this
    cases this

theorem tokens_sound (p : Char → Bool) (line : List Char) :
    ∀ sw ∈ tokens p line, sw.2 ≠ [] ∧ (∀ c ∈ sw.2, p c = false) ∧
      (line.drop sw.1).take sw.2.length = sw.2 ∧
      sw.1 + sw.2.length ≤ line.length := by
  intro sw hsw
  rw [tokens_eq_spec] at hsw
  have h := tokensSpec_sound p line 0 sw hsw
  exact ⟨h.2.1, h.2.2.1, by simpa using h.2.2.2.1, by simpa using h.2.2.2.2⟩

theorem tokens_pairwise (p : Char → Bool) (line : List Char) :
    (tokens p line).Pairwise (fun a b => a.1 + a.2.length ≤ b.1) := by
  rw [tokens_eq_spec]
  exact tokensSpec_pairwise p line 0

theorem mkLineMatch_def (seps : List Char) (pos lineIdx : Nat) (line : List Char)
    (s : Nat) (w : List Char) :
    mkLineMatch seps pos lineIdx line (s, w) =
      { text := leadingSep (nonWsSeps seps) line s ++ w ++
          trailingSep (nonWsSeps seps) line (s + w.length)
        start_pos := pos + (s - (leadingSep (nonWsSeps seps) line s).length)
        end_pos := pos + s + w.length
        line := lineIdx
        col := s - (leadingSep (nonWsSeps seps) line s).length
        label := none
        match_start := 0
        match_end := 0
        copy_text := w } := rfl

theorem nonWsSeps_word_boundary (seps : List Char) :
    ∀ c, (nonWsSeps seps).contains c = true → wordBoundary seps c = true := by
  intro c hc
  have hcmem : c ∈ nonWsSeps seps := List.mem_of_elem_eq_true hc
  have hcseps : c ∈ seps := List.mem_of_mem_filter hcmem
  unfold wordBoundary
  have hne : seps.isEmpty = false := by
    cases seps with
    | nil => cases hcseps
    | cons a b => rfl
  rw [hne]
  simp only [Bool.false_eq_true, reduceIte]
  exact List.elem_eq_true_of_mem hcseps

theorem match_text_slice {line : List Char} {lead w trail u rest : List Char}
    {s : Nat} (hu : line.take s = u ++ lead) (hulen : u.length + lead.length = s)
    (hw : (line.drop s).take w.length = w)
    (htr : line.drop (s + w.length) = trail ++ rest) :
    (line.drop (s - lead.length)).take (lead ++ w ++ trail).length =
      lead ++ w ++ trail ∧
    (s - lead.length) + (lead ++ w ++ trail).length ≤ line.length := by
  have hdropS : line.drop s = w ++ (trail ++ rest) := by
    conv_lhs => rw [← List.take_append_drop w.length (line.drop s)]
    rw [hw, List.drop_drop, htr]
  have hline : line = u ++ (lead ++ (w ++ (trail ++ rest))) := by
    conv_lhs => rw [← List.take_append_drop s line, hu, hdropS]
    simp [List.append_assoc]
  have hcol : s - lead.length = u.length := by omega
  rw [hcol]
  constructor
  · conv_lhs => rw [hline, List.drop_left]
    rw [show lead ++ (w ++ (trail ++ rest)) = (lead ++ (w ++ trail)) ++ rest from
      by simp [List.append_assoc]]
    rw [List.take_left' (by simp)]
    simp [List.append_assoc]
  · have hlen := congrArg List.length hline
    simp only [List.length_append] at hlen ⊢
    omega

theorem buildLineMatches_pairwise (seps : List Char) (pos lineIdx : Nat)
    (line : List Char) :
    (buildLineMatches seps pos lineIdx line).Pairwise
      (fun a b => a.start_pos < b.start_pos) := by
  unfold buildLineMatches
  rw [List.pairwise_map]
  have hpw := tokens_pairwise (wordBoundary seps) line
  refine hpw.imp_of_mem ?_
  intro a b ha hb hgap
  obtain ⟨hane, hach, haslice, habound⟩ := tokens_sound _ _ a ha
  obtain ⟨hbne, hbch, hbslice, hbbound⟩ := tokens_sound _ _ b hb
  have hla : (leadingSep (nonWsSeps seps) line a.1).length ≤ a.1 := by
    obtain ⟨u, hu, hulen, _⟩ := leadingSep_decomp (nonWsSeps seps) line a.1
      (by omega)
    omega
  have hlb := leadingSep_length_le_gap (nonWsSeps seps) line (wordBoundary seps)
    (nonWsSeps_word_boundary seps) a.1 a.2 hane hach haslice b.1 hgap (by omega)
  have hwa : 0 < a.2.length := List.length_pos.mpr hane
  cases a with
  | mk a1 a2 =>
    cases b with
    | mk b1 b2 =>
      simp only [mkLineMatch_def]
      simp only at hla hlb hwa hgap ⊢
      omega

theorem buildLineMatches_start_bounds (seps : List Char) (pos lineIdx : Nat)
    (line : List Char) :
    ∀ m ∈ buildLineMatches seps pos lineIdx line,
      pos ≤ m.start_pos ∧ m.start_pos ≤ pos + line.length := by
  intro m hm
  unfold buildLineMatches at hm
  obtain ⟨sw, hsw, rfl⟩ := List.mem_map.mp hm
  obtain ⟨hne, _, _, hbound⟩ := tokens_sound _ _ sw hsw
  have hw : 0 < sw.2.length := List.length_pos.mpr hne
  cases sw with
  | mk s w =>
    simp only [mkLineMatch_def]
    simp only at hw hbound
    omega

theorem buildMatches_start_lower (seps : List Char) :
    ∀ (ls : List (List Char)) (li pos : Nat),
      ∀ m ∈ buildMatches seps ls li pos, pos ≤ m.start_pos := by
  intro ls
  induction ls with
  | nil => intro li pos m hm; cases hm
  | cons line rest ih =>
    intro li pos m hm
    rcases List.mem_append.mp hm with h | h
    · exact (buildLineMatches_start_bounds seps pos li line m h).1
    · have := ih (li + 1) (pos + line.length + 1) m h
      omega

theorem buildMatches_pairwise (seps : List Char) :
    ∀ (ls : List (List Char)) (li pos : Nat),
      (buildMatches seps ls li pos).Pairwise
        (fun a b => a.start_pos < b.start_pos) := by
  intro ls
  induction ls with
  | nil => intro li pos; exact List.Pairwise.nil
  | cons line rest ih =>
    intro li pos
    rw [buildMatches, List.pairwise_append]
    refine ⟨buildLineMatches_pairwise seps pos li line, ih _ _, ?_⟩
    intro a ha b hb
    have h1 := (buildLineMatches_start_bounds seps pos li line a ha).2
    have h2 := buildMatches_start_lower seps rest (li + 1)
      (pos + line.length + 1) b hb
    omega

theorem flattenPos_cons (l : List Char) (ls : List (List Char)) (k : Nat) :
    flattenPos (l :: ls) (k + 1) = (l.length + 1) + flattenPos ls k := by
  simp [flattenPos]

theorem buildMatches_sound (seps : List Char) :
    ∀ (ls : List (List Char)) (li pos : Nat),
      ∀ m ∈ buildMatches seps ls li pos,
        ∃ (k : Nat) (hk : k < ls.length) (s : Nat) (w : List Char),
          (s, w) ∈ tokens (wordBoundary seps) (ls.get ⟨k, hk⟩) ∧
          m.line = li + k ∧
          m = mkLineMatch seps (pos + flattenPos ls k) (li + k)
            (ls.get ⟨k, hk⟩) (s, w) := by
  intro ls
  induction ls with
  | nil => intro li pos m hm; cases hm
  | cons line rest ih =>
    intro li pos m hm
    rcases List.mem_append.mp hm with h | h
    · obtain ⟨sw, hsw, rfl⟩ := List.mem_map.mp h
      refine ⟨0, by simp, sw.1, sw.2, by simpa using hsw, by simp [mkLineMatch], ?_⟩
      simp [flattenPos]
    · obtain ⟨k, hk, s, w, htok, hline, heq⟩ := ih (li + 1) (pos + line.length + 1) m h
      refine ⟨k + 1, by simpa using Nat.succ_lt_succ hk, s, w, ?_, by omega, ?_⟩
      · simpa using htok
      · rw [heq, flattenPos_cons]
        have h1 : pos + line.length + 1 + flattenPos rest k =
            pos + (line.length + 1 + flattenPos rest k) := by omega
        have h2 : li + 1 + k = li + (k + 1) := by omega
        rw [h1, h2]
        rfl

theorem flattenIndex_indexInsert (k : List Char) (m : SearchMatch) :
    ∀ idx, flattenIndex (indexInsert k m idx) ~ m :: flattenIndex idx := by
  intro idx
  induction idx with
  | nil => simp [indexInsert, flattenIndex]
  | cons kb rest ih =>
    cases kb with
    | mk k' ms =>
      by_cases hk : k' = k
      · simp only [indexInsert, if_pos hk, flattenIndex, List.flatMap_cons]
        have h1 : (ms ++ [m]) ++ rest.flatMap (fun kb => kb.2) =
            ms ++ (m :: rest.flatMap (fun kb => kb.2)) := by
          simp [List.append_assoc]
        rw [h1]
        exact List.perm_middle
      · simp only [indexInsert, if_neg hk, flattenIndex, List.flatMap_cons]
        calc ms ++ (indexInsert k m rest).flatMap (fun kb => kb.2)
            ~ ms ++ (m :: rest.flatMap (fun kb => kb.2)) :=
              List.Perm.append_left ms (ih)
          _ ~ m :: (ms ++ rest.flatMap (fun kb => kb.2)) := List.perm_middle

theorem flattenIndex_foldl (cs : Bool) :
    ∀ (ms : List SearchMatch) (idx : List (List Char × List SearchMatch)),
      flattenIndex (ms.foldl (fun idx m =>
        indexInsert (indexKey cs m.text) m idx) idx) ~ flattenIndex idx ++ ms := by
  intro ms
  induction ms with
  | nil => intro idx; simp
  | cons m ms ih =>
    intro idx
    simp only [List.foldl_cons]
    calc flattenIndex ((ms.foldl (fun idx m =>
            indexInsert (indexKey cs m.text) m idx)
            (indexInsert (indexKey cs m.text) m idx)))
        ~ flattenIndex (indexInsert (indexKey cs m.text) m idx) ++ ms := ih _
      _ ~ (m :: flattenIndex idx) ++ ms :=
          List.Perm.append_right ms (flattenIndex_indexInsert _ _ idx)
      _ = m :: (flattenIndex idx ++ ms) := by simp
      _ ~ flattenIndex idx ++ (m :: ms) := List.perm_middle.symm

theorem flattenIndex_buildIndex (cs : Bool) (ms : List SearchMatch) :
    flattenIndex (buildIndex cs ms) ~ ms := by
  have h := flattenIndex_foldl cs ms []
  simpa [flattenIndex, buildIndex] using h

theorem indexInsert_key_inv {cs : Bool} {k : List Char} {m : SearchMatch}
    (hkey : indexKey cs m.text = k) :
    ∀ idx, (∀ kb ∈ idx, ∀ x ∈ kb.2, indexKey cs x.text = kb.1) →
      ∀ kb ∈ indexInsert k m idx, ∀ x ∈ kb.2, indexKey cs x.text = kb.1 := by
  intro idx
  induction idx with
  | nil =>
    intro _ kb hkb x hx
    simp only [indexInsert, List.mem_singleton] at hkb
    subst hkb
    simp only [List.mem_singleton] at hx
    subst hx
    exact hkey
  | cons kb0 rest ih =>
    intro hinv kb hkb x hx
    cases kb0 with
    | mk k' ms' =>
      by_cases hk : k' = k
      · rw [indexInsert, if_pos hk] at hkb
        rcases List.mem_cons.mp hkb with rfl | hkb
        · rcases List.mem_append.mp hx with hx | hx
          · exact hinv (k', ms') (List.mem_cons_self ..) x hx
          · simp only [List.mem_singleton] at hx
            subst hx
            simpa [hk] using hkey
        · exact hinv kb (List.mem_cons_of_mem _ hkb) x hx
      · rw [indexInsert, if_neg hk] at hkb
        rcases List.mem_cons.mp hkb with rfl | hkb
        · exact hinv (k', ms') (List.mem_cons_self ..) x hx
        · exact ih (fun kb2 h2 => hinv kb2 (List.mem_cons_of_mem _ h2)) kb hkb x hx

theorem buildIndex_key_inv (cs : Bool) (ms : List SearchMatch) :
    ∀ kb ∈ buildIndex cs ms, ∀ x ∈ kb.2, indexKey cs x.text = kb.1 := by
  suffices h : ∀ (ms : List SearchMatch) (idx : List (List Char × List SearchMatch)),
      (∀ kb ∈ idx, ∀ x ∈ kb.2, indexKey cs x.text = kb.1) →
      ∀ kb ∈ ms.foldl (fun idx m => indexInsert (indexKey cs m.text) m idx) idx,
        ∀ x ∈ kb.2, indexKey cs x.text = kb.1 by
    exact h ms [] (by intro kb hkb; cases hkb)
  intro ms
  induction ms with
  | nil => intro idx hinv; exact hinv
  | cons m ms ih =>
    intro idx hinv
    simp only [List.foldl_cons]
    exact ih _ (indexInsert_key_inv rfl idx hinv)

theorem flatMap_buckets_eq (cs : Bool) (sq : List Char) :
    ∀ (idx : List (List Char × List SearchMatch)),
      (∀ kb ∈ idx, ∀ x ∈ kb.2, indexKey cs x.text = kb.1) →
      (idx.flatMap (fun kb =>
        if isSubstring sq kb.1 then
          kb.2.filterMap (fun m =>
            match searchText cs m sq with
            | some p =>
              some { m with label := none, match_start := p,
                            match_end := p + sq.length }
            | none => none)
        else [])) =
      (flattenIndex idx).filterMap (fun m =>
        if isSubstring sq (indexKey cs m.text) then searchFilter cs sq m
        else none) := by
  intro idx
  induction idx with
  | nil => intro _; rfl
  | cons kb rest ih =>
    intro hinv
    simp only [List.flatMap_cons, flattenIndex, List.filterMap_append]
    have htail := ih (fun kb2 h2 => hinv kb2 (List.mem_cons_of_mem _ h2))
    rw [show flattenIndex rest = rest.flatMap (fun kb => kb.2) from rfl] at htail
    rw [htail]
    congr 1
    by_cases hsub : isSubstring sq kb.1
    · rw [if_pos hsub]
      apply List.filterMap_congr
      intro m hm
      rw [hinv kb (List.mem_cons_self ..) m hm, if_pos hsub]
      rfl
    · rw [if_neg hsub]
      symm
      rw [List.filterMap_eq_nil_iff]
      intro m hm
      rw [hinv kb (List.mem_cons_self ..) m hm, if_neg hsub]

theorem matchesList_perm_build (pane : List Char) (rev : Bool) (seps : List Char)
    (cs : Bool) (pool sq : List Char) :
    matchesList (mkSearchInterface pane rev seps cs pool) sq ~
      (buildMatches seps (splitLines pane) 0 0).filterMap (fun m =>
        if isSubstring sq (indexKey cs m.text) then searchFilter cs sq m
        else none) := by
  have hinv : ∀ kb ∈ (mkSearchInterface pane rev seps cs pool).word_index,
      ∀ x ∈ kb.2, indexKey cs x.text = kb.1 :=
    buildIndex_key_inv cs (buildMatches seps (splitLines pane) 0 0)
  have heq : matchesList (mkSearchInterface pane rev seps cs pool) sq =
      (flattenIndex (mkSearchInterface pane rev seps cs pool).word_index).filterMap
        (fun m => if isSubstring sq (indexKey cs m.text) then searchFilter cs sq m
          else none) :=
    flatMap_buckets_eq cs sq _ hinv
  rw [heq]
  exact List.Perm.filterMap _
    (flattenIndex_buildIndex cs (buildMatches seps (splitLines pane) 0 0))

theorem searchFilter_core {cs : Bool} {sq : List Char} {m m' : SearchMatch}
    (h : (if isSubstring sq (indexKey cs m.text) then searchFilter cs sq m
          else none) = some m') :
    m'.start_pos = m.start_pos ∧ m'.text = m.text ∧ m'.end_pos = m.end_pos ∧
    m'.line = m.line ∧ m'.col = m.col ∧ m'.copy_text = m.copy_text ∧
    searchText cs m sq = some m'.match_start ∧
    m'.match_end = m'.match_start + sq.length := by
  by_cases hsub : isSubstring sq (indexKey cs m.text)
  · rw [if_pos hsub] at h
    unfold searchFilter at h
    cases hst : searchText cs m sq with
    | none => rw [hst] at h; cases h
    | some p =>
      rw [hst] at h
      simp only [Option.some.injEq] at h
      subst h
      simp [hst]
  · rw [if_neg hsub] at h
    cases h

theorem pairwise_filterMap_start {g : SearchMatch → Option SearchMatch}
    (hg : ∀ m m', g m = some m' → m'.start_pos = m.start_pos) :
    ∀ {ms : List SearchMatch},
      ms.Pairwise (fun a b => a.start_pos < b.start_pos) →
      (ms.filterMap g).Pairwise (fun a b => a.start_pos < b.start_pos) := by
  intro ms
  induction ms with
  | nil => intro _; simp
  | cons m ms ih =>
    intro h
    obtain ⟨hhead, htail⟩ := List.pairwise_cons.mp h
    rw [List.filterMap_cons]
    cases hgm : g m with
    | none => exact ih htail
    | some m' =>
      refine List.Pairwise.cons ?_ (ih htail)
      intro b hb
      obtain ⟨a, ha, hga⟩ := List.mem_filterMap.mp hb
      rw [hg m m' hgm, hg a b hga]
      exact hhead a ha

theorem matchesList_starts_nodup (pane : List Char) (rev : Bool)
    (seps : List Char) (cs : Bool) (pool sq : List Char) :
    ((matchesList (mkSearchInterface pane rev seps cs pool) sq).map
      SearchMatch.start_pos).Nodup := by
  have hperm := matchesList_perm_build pane rev seps cs pool sq
  have hpw := buildMatches_pairwise seps (splitLines pane) 0 0
  have hpw2 := pairwise_filterMap_start
    (g := fun m => if isSubstring sq (indexKey cs m.text) then searchFilter cs sq m
      else none)
    (fun m m' h => (searchFilter_core h).1) hpw
  have hnd1 : (((buildMatches seps (splitLines pane) 0 0).filterMap (fun m =>
      if isSubstring sq (indexKey cs m.text) then searchFilter cs sq m
      else none)).map SearchMatch.start_pos).Nodup :=
    List.pairwise_map.mpr (hpw2.imp (fun h => Nat.ne_of_lt h))
  exact ((hperm.map SearchMatch.start_pos).nodup_iff).mpr hnd1

theorem matchesList_keys_nodup (pane : List Char) (rev : Bool) (seps : List Char)
    (cs : Bool) (pool sq : List Char) :
    ((matchesList (mkSearchInterface pane rev seps cs pool) sq).map
      (fun m => (m.start_pos, m.text))).Nodup := by
  have hnd2 := matchesList_starts_nodup pane rev seps cs pool sq
  have hnd3 : ((matchesList (mkSearchInterface pane rev seps cs pool) sq).map
      (fun m => (m.start_pos, m.text))).map Prod.fst |>.Nodup := by
    rw [List.map_map]
    exact hnd2
  exact List.Nodup.of_map _ hnd3

theorem dedupMatches_eq_self :
    ∀ (ms : List SearchMatch) (seen : List (Nat × List Char)),
      (ms.map (fun m => (m.start_pos, m.text))).Nodup →
      (∀ m ∈ ms, (m.start_pos, m.text) ∉ seen) →
      dedupMatches ms seen = ms := by
  intro ms
  induction ms with
  | nil => intro seen _ _; rfl
  | cons m ms ih =>
    intro seen hnd hdisj
    have hnd' := hnd
    rw [List.map_cons, List.nodup_cons] at hnd'
    obtain ⟨hnotin, hndtail⟩ := hnd'
    have hc : seen.contains (m.start_pos, m.text) = false := by
      cases hcontains : seen.contains (m.start_pos, m.text) with
      | false => rfl
      | true =>
        exact absurd (List.mem_of_elem_eq_true hcontains)
          (hdisj m (List.mem_cons_self ..))
    rw [dedupMatches, hc]
    simp only [Bool.false_eq_true, reduceIte]
    congr 1
    apply ih _ hndtail
    intro a ha
    simp only [List.mem_cons]
    rintro (h | h)
    · exact hnotin (h ▸ List.mem_map_of_mem (fun m => (m.start_pos, m.text)) ha)
    · exact hdisj a (List.mem_cons_of_mem _ ha) h

theorem insertByPos_perm (m : SearchMatch) :
    ∀ l, insertByPos m l ~ m :: l := by
  intro l
  induction l with
  | nil => simp [insertByPos]
  | cons x xs ih =>
    rw [insertByPos]
    by_cases hle : m.start_pos ≤ x.start_pos
    · rw [if_pos hle]
    · rw [if_neg hle]
      calc x :: insertByPos m xs ~ x :: m :: xs := List.Perm.cons x ih
        _ ~ m :: x :: xs := List.Perm.swap ..

theorem sortByPos_perm : ∀ l : List SearchMatch, sortByPos l ~ l := by
  intro l
  induction l with
  | nil => rfl
  | cons m ms ih =>
    rw [sortByPos]
    calc insertByPos m (sortByPos ms) ~ m :: sortByPos ms := insertByPos_perm ..
      _ ~ m :: ms := List.Perm.cons m ih

theorem insertByPos_sorted (m : SearchMatch) :
    ∀ l, l.Pairwise (fun a b => a.start_pos ≤ b.start_pos) →
      (insertByPos m l).Pairwise (fun a b => a.start_pos ≤ b.start_pos) := by
  intro l
  induction l with
  | nil => intro _; simp [insertByPos]
  | cons x xs ih =>
    intro h
    obtain ⟨hhead, htail⟩ := List.pairwise_cons.mp h
    rw [insertByPos]
    by_cases hle : m.start_pos ≤ x.start_pos
    · rw [if_pos hle]
      refine List.Pairwise.cons ?_ h
      intro b hb
      rcases List.mem_cons.mp hb with rfl | hb
      · exact hle
      · exact Nat.le_trans hle (hhead b hb)
    · rw [if_neg hle]
      refine List.Pairwise.cons ?_ (ih htail)
      intro b hb
      rcases (insertByPos_perm m xs).mem_iff.mp hb with hb2
      rcases List.mem_cons.mp hb2 with rfl | hb2
      · omega
      · exact hhead b hb2

theorem sortByPos_sorted :
    ∀ l : List SearchMatch,
      (sortByPos l).Pairwise (fun a b => a.start_pos ≤ b.start_pos) := by
  intro l
  induction l with
  | nil => simp [sortByPos]
  | cons m ms ih =>
    rw [sortByPos]
    exact insertByPos_sorted m _ ih

theorem pairwise_lt_of_le_nodup {l : List SearchMatch}
    (h1 : l.Pairwise (fun a b => a.start_pos ≤ b.start_pos))
    (h2 : (l.map SearchMatch.start_pos).Nodup) :
    l.Pairwise (fun a b => a.start_pos < b.start_pos) := by
  have h2' : l.Pairwise (fun a b => a.start_pos ≠ b.start_pos) :=
    List.pairwise_map.mp h2
  exact (h1.and h2').imp (fun h => Nat.lt_of_le_of_ne h.1 h.2)

theorem orderedMatches_pairwise (pane : List Char) (rev : Bool)
    (seps : List Char) (cs : Bool) (pool sq : List Char) :
    (orderedMatches (mkSearchInterface pane rev seps cs pool) sq).Pairwise
      (fun a b => if rev then b.start_pos < a.start_pos
                  else a.start_pos < b.start_pos) := by
  have hnd := matchesList_keys_nodup pane rev seps cs pool sq
  have hded : dedupMatches (matchesList (mkSearchInterface pane rev seps cs pool) sq) [] =
      matchesList (mkSearchInterface pane rev seps cs pool) sq :=
    dedupMatches_eq_self _ _ hnd (by intro m _; simp)
  have hsorted := sortByPos_sorted
    (matchesList (mkSearchInterface pane rev seps cs pool) sq)
  have hndsort : ((sortByPos (matchesList (mkSearchInterface pane rev seps cs pool) sq)).map
      SearchMatch.start_pos).Nodup := by
    have hperm := (sortByPos_perm
      (matchesList (mkSearchInterface pane rev seps cs pool) sq)).map
        SearchMatch.start_pos
    exact hperm.nodup_iff.mpr (matchesList_starts_nodup pane rev seps cs pool sq)
  have hlt := pairwise_lt_of_le_nodup hsorted hndsort
  unfold orderedMatches
  rw [mk_reverse_search, hded]
  cases rev with
  | false =>
    simp only [Bool.false_eq_true, reduceIte]
    exact hlt.imp (fun h => h)
  | true =>
    simp only [reduceIte]
    exact List.pairwise_reverse.mpr (hlt.imp (fun h => h))

theorem pairwise_start_transfer {l l' : List SearchMatch}
    (h : l.map stripLabel = l'.map stripLabel)
    {S : Nat → Nat → Prop}
    (hp : l'.Pairwise (fun a b => S a.start_pos b.start_pos)) :
    l.Pairwise (fun a b => S a.start_pos b.start_pos) := by
  have h1 : l.map SearchMatch.start_pos = l'.map SearchMatch.start_pos := by
    have h2 := congrArg (List.map SearchMatch.start_pos) h
    simpa [List.map_map, Function.comp, stripLabel] using h2
  have hp1 : (l'.map SearchMatch.start_pos).Pairwise S := List.pairwise_map.mpr hp
  rw [← h1] at hp1
  exact List.pairwise_map.mp hp1

/-- C6: the returned occurrence list is sorted by strictly ascending flattened
source position when reverse (bottom-first) ordering is disabled and strictly
descending when it is enabled. -/
theorem ordering_invariant (pane : List Char) (rev : Bool) (seps : List Char)
    (cs : Bool) (pool q : List Char) :
    (runSearch pane rev seps cs pool q).Pairwise
      (fun a b => if rev then b.start_pos < a.start_pos
                  else a.start_pos < b.start_pos) := by
  by_cases hq : q = []
  · subst hq
    simp [runSearch, SearchInterface.search]
  · rw [runSearch, search_eq_assign _ _ hq]
    have hmap := assignLabels_map_strip
      ((mkSearchInterface pane rev seps cs pool).case_sensitive)
      (if (mkSearchInterface pane rev seps cs pool).case_sensitive then q
       else lowerChars q)
      (mkSearchInterface pane rev seps cs pool).label_characters
      (orderedMatches (mkSearchInterface pane rev seps cs pool)
        (if (mkSearchInterface pane rev seps cs pool).case_sensitive then q
         else lowerChars q))
    exact pairwise_start_transfer
      (S := fun x y => if rev = true then y < x else x < y) hmap
      (orderedMatches_pairwise pane rev seps cs pool _)

theorem mem_orderedMatches_iff (pane : List Char) (rev : Bool) (seps : List Char)
    (cs : Bool) (pool sq : List Char) (m₀ : SearchMatch) :
    m₀ ∈ orderedMatches (mkSearchInterface pane rev seps cs pool) sq ↔
      m₀ ∈ matchesList (mkSearchInterface pane rev seps cs pool) sq := by
  have hded := dedupMatches_eq_self
    (matchesList (mkSearchInterface pane rev seps cs pool) sq) []
    (matchesList_keys_nodup pane rev seps cs pool sq) (by intro m _; simp)
  unfold orderedMatches
  rw [mk_reverse_search, hded]
  cases rev with
  | false =>
    simp only [Bool.false_eq_true, reduceIte]
    exact (sortByPos_perm _).mem_iff
  | true =>
    simp only [reduceIte]
    rw [List.mem_reverse]
    exact (sortByPos_perm _).mem_iff

theorem mem_result_core (pane : List Char) (rev : Bool) (seps : List Char)
    (cs : Bool) (pool q : List Char) (hq : q ≠ []) :
    ∀ m ∈ runSearch pane rev seps cs pool q,
      ∃ m₁ ∈ buildMatches seps (splitLines pane) 0 0,
        m.text = m₁.text ∧ m.start_pos = m₁.start_pos ∧
        m.end_pos = m₁.end_pos ∧ m.line = m₁.line ∧ m.col = m₁.col ∧
        m.copy_text = m₁.copy_text ∧
        searchText cs m₁ (if cs then q else lowerChars q) = some m.match_start ∧
        m.match_end = m.match_start + (if cs then q else lowerChars q).length := by
  intro m hm
  rw [runSearch, search_eq_assign _ _ hq] at hm
  simp only [mk_case_sensitive] at hm
  simp only [assignLabels] at hm
  obtain ⟨m₀, hm₀, hstrip⟩ := mem_assignAux_strip _ _ _ _ _ _ m hm
  have hm₀' := (mem_orderedMatches_iff pane rev seps cs pool _ m₀).mp hm₀
  obtain ⟨m₁, hm₁, hg⟩ := List.mem_filterMap.mp
    ((matchesList_perm_build pane rev seps cs pool _).mem_iff.mp hm₀')
  obtain ⟨hs, ht, he, hl, hc, hcp, hst, hme⟩ := searchFilter_core hg
  have f1 : m.text = m₀.text := by
    simpa [stripLabel] using congrArg SearchMatch.text hstrip
  have f2 : m.start_pos = m₀.start_pos := by
    simpa [stripLabel] using congrArg SearchMatch.start_pos hstrip
  have f3 : m.end_pos = m₀.end_pos := by
    simpa [stripLabel] using congrArg SearchMatch.end_pos hstrip
  have f4 : m.line = m₀.line := by
    simpa [stripLabel] using congrArg SearchMatch.line hstrip
  have f5 : m.col = m₀.col := by
    simpa [stripLabel] using congrArg SearchMatch.col hstrip
  have f6 : m.copy_text = m₀.copy_text := by
    simpa [stripLabel] using congrArg SearchMatch.copy_text hstrip
  have f7 : m.match_start = m₀.match_start := by
    simpa [stripLabel] using congrArg SearchMatch.match_start hstrip
  have f8 : m.match_end = m₀.match_end := by
    simpa [stripLabel] using congrArg SearchMatch.match_end hstrip
  refine ⟨m₁, hm₁, ?_, ?_, ?_, ?_, ?_, ?_, ?_, ?_⟩
  · rw [f1, ht]
  · rw [f2, hs]
  · rw [f3, he]
  · rw [f4, hl]
  · rw [f5, hc]
  · rw [f6, hcp]
  · rw [f7]; exact hst
  · rw [f8, f7]; exact hme

theorem searchText_eq_listFind_key (cs : Bool) (m : SearchMatch)
    (sq : List Char) :
    searchText cs m sq = listFind (indexKey cs m.text) sq := by
  unfold searchText indexKey
  cases cs <;> simp

theorem length_filterMap_eq_filter {α β : Type} (g : α → Option β)
    (pr : α → Bool) (h : ∀ a, (g a).isSome = pr a) :
    ∀ l : List α, (l.filterMap g).length = (l.filter pr).length := by
  intro l
  induction l with
  | nil => rfl
  | cons a l ih =>
    rw [List.filterMap_cons, List.filter_cons]
    cases hga : g a with
    | none =>
      have : pr a = false := by rw [← h a, hga]; rfl
      rw [this]
      simpa using ih
    | some b =>
      have : pr a = true := by rw [← h a, hga]; rfl
      rw [this]
      simpa using ih

theorem result_length (pane : List Char) (rev : Bool) (seps : List Char)
    (cs : Bool) (pool q : List Char) (hq : q ≠ []) :
    (runSearch pane rev seps cs pool q).length =
      ((buildMatches seps (splitLines pane) 0 0).filter (fun m =>
        isSubstring (if cs then q else lowerChars q) (indexKey cs m.text))).length := by
  rw [runSearch, search_eq_assign _ _ hq]
  simp only [mk_case_sensitive]
  rw [length_assignLabels]
  have hded := dedupMatches_eq_self
    (matchesList (mkSearchInterface pane rev seps cs pool)
      (if cs then q else lowerChars q)) []
    (matchesList_keys_nodup pane rev seps cs pool _) (by intro m _; simp)
  unfold orderedMatches
  rw [mk_reverse_search, hded]
  have hlen1 : ∀ l : List SearchMatch, (sortByPos l).length = l.length :=
    fun l => (sortByPos_perm l).length_eq
  have hlen2 := (matchesList_perm_build pane rev seps cs pool
    (if cs then q else lowerChars q)).length_eq
  have hlen3 := length_filterMap_eq_filter
    (fun m => if isSubstring (if cs then q else lowerChars q) (indexKey cs m.text)
      then searchFilter cs (if cs then q else lowerChars q) m else none)
    (fun m => isSubstring (if cs then q else lowerChars q) (indexKey cs m.text))
    (by
      intro m
      dsimp only
      by_cases hsub : isSubstring (if cs then q else lowerChars q) (indexKey cs m.text)
      · rw [if_pos hsub, hsub]
        unfold searchFilter
        rw [searchText_eq_listFind_key]
        have : isSubstring (if cs then q else lowerChars q) (indexKey cs m.text) =
            (listFind (indexKey cs m.text) (if cs then q else lowerChars q)).isSome := rfl
        rw [this] at hsub
        cases hfind : listFind (indexKey cs m.text) (if cs then q else lowerChars q) with
        | none => rw [hfind] at hsub; cases hsub
        | some p => rfl
      · rw [if_neg hsub]
        simp only [Option.isSome_none]
        cases hsub2 : isSubstring (if cs then q else lowerChars q) (indexKey cs m.text) with
        | false => rfl
        | true => exact absurd hsub2 hsub)
    (buildMatches seps (splitLines pane) 0 0)
  cases rev with
  | false =>
    simp only [Bool.false_eq_true, reduceIte]
    rw [hlen1, hlen2, hlen3]
  | true =>
    simp only [reduceIte]
    rw [List.length_reverse, hlen1, hlen2, hlen3]

theorem searchText_text_congr {cs : Bool} {m m' : SearchMatch} {sq : List Char}
    (h : m.text = m'.text) : searchText cs m sq = searchText cs m' sq := by
  unfold searchText
  rw [h]

/-- C3 amended: for every candidate unit whose normalized text contains the
normalized query, the returned list contains exactly one occurrence, matched
at the first position at which the query occurs inside the candidate's
(case-folded) text, with `match_end = match_start + len(query)` — not one
occurrence per position. -/
theorem first_position_only (pane : List Char) (rev : Bool) (seps : List Char)
    (cs : Bool) (pool q : List Char) (hq : q ≠ []) :
    (runSearch pane rev seps cs pool q).length =
      ((buildMatches seps (splitLines pane) 0 0).filter (fun m =>
        isSubstring (if cs then q else lowerChars q) (indexKey cs m.text))).length ∧
    ∀ m ∈ runSearch pane rev seps cs pool q,
      searchText cs m (if cs then q else lowerChars q) = some m.match_start ∧
      m.match_end = m.match_start + q.length := by
  refine ⟨result_length pane rev seps cs pool q hq, ?_⟩
  intro m hm
  obtain ⟨m₁, hm₁, ht, _, _, _, _, _, hst, hme⟩ :=
    mem_result_core pane rev seps cs pool q hq m hm
  constructor
  · rw [searchText_text_congr ht]
    exact hst
  · rw [hme]
    congr 1
    cases cs <;> simp [lowerChars]

/-- Witness for C3's amended claim at the counterexample input. -/
theorem first_position_only_witness :
    ("a".toList ≠ []) ∧
    ((runSearch "aaa".toList true [] false [] "a".toList).length =
      ((buildMatches [] (splitLines "aaa".toList) 0 0).filter (fun m =>
        isSubstring (if false then "a".toList else lowerChars "a".toList)
          (indexKey false m.text))).length ∧
    ∀ m ∈ runSearch "aaa".toList true [] false [] "a".toList,
      searchText false m (if false then "a".toList else lowerChars "a".toList) =
        some m.match_start ∧
      m.match_end = m.match_start + "a".toList.length) :=
  ⟨by decide, first_position_only "aaa".toList true [] false [] "a".toList
    (by decide)⟩

/-- C5 at the failing input: with separators `"0-9"` — whose unescaped
hyphen gives the compiled classes range semantics, making every digit a
separator — the query `"ab"` on source `"12ab-cd34"` returns one occurrence
whose `copyText` is `"ab-cd"`, although the claim's resolution procedure on
the occurrence's text and match start offset yields the sub-word `"12ab"`
(the `copyText` the program reports even contains the configured separator
`'-'`). -/
theorem copy_text_range_divergence :
    runSearchRe "12ab-cd34".toList false "0-9".toList false [] "ab".toList
      = some [exRangeMatch] ∧
    claimResolveCopy "0-9".toList exRangeMatch.text exRangeMatch.match_start
      = "12ab".toList ∧
    exRangeMatch.copy_text ≠ "12ab".toList := by
  decide

theorem getD_of_lt (ls : List (List Char)) (k : Nat) (hk : k < ls.length) :
    ls.getD k [] = ls.get ⟨k, hk⟩ := by
  simp [List.getD_eq_getElem?_getD, List.getElem?_eq_getElem hk]

/-- C10: every candidate unit and every returned occurrence is located
consistently — its text occurs verbatim at (line, col) in the split source,
its start position is the flattened offset of (line, col), the end position
lies between the start position and the end of the text, and the text beyond
`end_pos` is exactly a (possibly empty) captured run of non-whitespace
separator characters, nonempty precisely when `end_pos` is short of the text's
end. -/
theorem location_consistency (pane : List Char) (rev : Bool) (seps : List Char)
    (cs : Bool) (pool : List Char) :
    ∀ m, (m ∈ buildMatches seps (splitLines pane) 0 0 ∨
          ∃ q, m ∈ runSearch pane rev seps cs pool q) →
      m.line < (splitLines pane).length ∧
      (((splitLines pane).getD m.line []).drop m.col).take m.text.length =
        m.text ∧
      m.col + m.text.length ≤ ((splitLines pane).getD m.line []).length ∧
      m.start_pos = flattenPos (splitLines pane) m.line + m.col ∧
      m.start_pos ≤ m.end_pos ∧
      m.end_pos ≤ m.start_pos + m.text.length ∧
      (∀ c ∈ m.text.drop (m.end_pos - m.start_pos),
        (nonWsSeps seps).contains c = true) ∧
      (m.end_pos < m.start_pos + m.text.length ↔
        m.text.drop (m.end_pos - m.start_pos) ≠ []) := by
  have hbuild : ∀ m ∈ buildMatches seps (splitLines pane) 0 0,
      m.line < (splitLines pane).length ∧
      (((splitLines pane).getD m.line []).drop m.col).take m.text.length =
        m.text ∧
      m.col + m.text.length ≤ ((splitLines pane).getD m.line []).length ∧
      m.start_pos = flattenPos (splitLines pane) m.line + m.col ∧
      m.start_pos ≤ m.end_pos ∧
      m.end_pos ≤ m.start_pos + m.text.length ∧
      (∀ c ∈ m.text.drop (m.end_pos - m.start_pos),
        (nonWsSeps seps).contains c = true) ∧
      (m.end_pos < m.start_pos + m.text.length ↔
        m.text.drop (m.end_pos - m.start_pos) ≠ []) := by
    intro m hm
    obtain ⟨k, hk, s, w, htok, hlinem, heq⟩ :=
      buildMatches_sound seps (splitLines pane) 0 0 m hm
    obtain ⟨hwne, hwch, hslice, hbound⟩ := tokens_sound _ _ (s, w) htok
    simp only at hwne hwch hslice hbound
    have hwpos : 0 < w.length := List.length_pos.mpr hwne
    have hs_le : s ≤ ((splitLines pane).get ⟨k, hk⟩).length := by omega
    obtain ⟨u, hu, hulen, hchlead⟩ :=
      leadingSep_decomp (nonWsSeps seps) ((splitLines pane).get ⟨k, hk⟩) s hs_le
    obtain ⟨rest, htr, hchtrail⟩ :=
      trailingSep_decomp (nonWsSeps seps) ((splitLines pane).get ⟨k, hk⟩)
        (s + w.length)
    obtain ⟨hslice2, hbound2⟩ := match_text_slice hu hulen hslice htr
    have hline0 : m.line = k := by omega
    have hgetD : (splitLines pane).getD m.line [] =
        (splitLines pane).get ⟨k, hk⟩ := by
      rw [hline0]
      exact getD_of_lt _ _ hk
    have htext : m.text =
        leadingSep (nonWsSeps seps) ((splitLines pane).get ⟨k, hk⟩) s ++ w ++
          trailingSep (nonWsSeps seps) ((splitLines pane).get ⟨k, hk⟩)
            (s + w.length) := by
      rw [heq, mkLineMatch_def]
    have hcol : m.col = s - (leadingSep (nonWsSeps seps)
        ((splitLines pane).get ⟨k, hk⟩) s).length := by
      rw [heq, mkLineMatch_def]
    have hstart : m.start_pos = (0 + flattenPos (splitLines pane) k) +
        (s - (leadingSep (nonWsSeps seps)
          ((splitLines pane).get ⟨k, hk⟩) s).length) := by
      rw [heq, mkLineMatch_def]
    have hend : m.end_pos = (0 + flattenPos (splitLines pane) k) + s + w.length := by
      rw [heq, mkLineMatch_def]
    have hla : (leadingSep (nonWsSeps seps)
        ((splitLines pane).get ⟨k, hk⟩) s).length ≤ s := by omega
    have htlen : m.text.length =
        (leadingSep (nonWsSeps seps) ((splitLines pane).get ⟨k, hk⟩) s).length +
        w.length +
        (trailingSep (nonWsSeps seps) ((splitLines pane).get ⟨k, hk⟩)
          (s + w.length)).length := by
      rw [htext]
      simp [List.length_append]
      omega
    have hdiff : m.end_pos - m.start_pos =
        (leadingSep (nonWsSeps seps) ((splitLines pane).get ⟨k, hk⟩) s).length +
        w.length := by
      rw [hstart, hend]
      omega
    have hdroptrail : m.text.drop (m.end_pos - m.start_pos) =
        trailingSep (nonWsSeps seps) ((splitLines pane).get ⟨k, hk⟩)
          (s + w.length) := by
      rw [hdiff, htext]
      rw [show leadingSep (nonWsSeps seps) ((splitLines pane).get ⟨k, hk⟩) s ++ w ++
          trailingSep (nonWsSeps seps) ((splitLines pane).get ⟨k, hk⟩) (s + w.length) =
          (leadingSep (nonWsSeps seps) ((splitLines pane).get ⟨k, hk⟩) s ++ w) ++
          trailingSep (nonWsSeps seps) ((splitLines pane).get ⟨k, hk⟩) (s + w.length)
        from by simp [List.append_assoc]]
      exact List.drop_left' (by simp)
    refine ⟨by omega, ?_, ?_, by rw [hstart, hcol, hline0]; omega, by omega,
      by omega, ?_, ?_⟩
    · rw [hgetD, hcol, htext]
      exact hslice2
    · rw [hgetD, hcol, htext]
      have := hbound2
      simpa using this
    · rw [hdroptrail]
      exact hchtrail
    · rw [hdroptrail]
      constructor
      · intro hlt
        have : 0 < (trailingSep (nonWsSeps seps)
            ((splitLines pane).get ⟨k, hk⟩) (s + w.length)).length := by omega
        exact List.length_pos.mp this
      · intro hne
        have : 0 < (trailingSep (nonWsSeps seps)
            ((splitLines pane).get ⟨k, hk⟩) (s + w.length)).length :=
          List.length_pos.mpr hne
        omega
  intro m hm
  rcases hm with h | ⟨q, h⟩
  · exact hbuild m h
  · by_cases hq : q = []
    · subst hq
      simp [runSearch, SearchInterface.search] at h
    · obtain ⟨m₁, hm₁, ht, hs, he, hl, hc, _, _, _⟩ :=
        mem_result_core pane rev seps cs pool q hq m h
      rw [ht, hs, he, hl, hc]
      exact hbuild m₁ hm₁

/-- Witness for C10 at a concrete input: the single occurrence returned for
source `"hello world"`, query `"h"`. -/
theorem location_consistency_witness :
    (exHelloMatch ∈ buildMatches [] (splitLines "hello world".toList) 0 0 ∨
      ∃ q, exHelloMatch ∈ runSearch "hello world".toList true [] false [] q) ∧
    (exHelloMatch.line < (splitLines "hello world".toList).length ∧
     (((splitLines "hello world".toList).getD exHelloMatch.line []).drop
        exHelloMatch.col).take exHelloMatch.text.length = exHelloMatch.text ∧
     exHelloMatch.col + exHelloMatch.text.length ≤
       ((splitLines "hello world".toList).getD exHelloMatch.line []).length ∧
     exHelloMatch.start_pos =
       flattenPos (splitLines "hello world".toList) exHelloMatch.line +
         exHelloMatch.col ∧
     exHelloMatch.start_pos ≤ exHelloMatch.end_pos ∧
     exHelloMatch.end_pos ≤ exHelloMatch.start_pos + exHelloMatch.text.length ∧
     (∀ c ∈ exHelloMatch.text.drop
        (exHelloMatch.end_pos - exHelloMatch.start_pos),
        (nonWsSeps []).contains c = true) ∧
     (exHelloMatch.end_pos < exHelloMatch.start_pos + exHelloMatch.text.length ↔
       exHelloMatch.text.drop
         (exHelloMatch.end_pos - exHelloMatch.start_pos) ≠ [])) := by
  have hmem : exHelloMatch ∈ runSearch "hello world".toList true [] false []
      "h".toList := by decide
  exact ⟨Or.inr ⟨"h".toList, hmem⟩,
    location_consistency "hello world".toList true [] false [] exHelloMatch
      (Or.inr ⟨"h".toList, hmem⟩)⟩

end FlashCopy
